import Mathlib

/-!
# Honeypot platform — deployment orchestrator and dashboard verification

This development embeds the deployment orchestrator of the honeypot
threat-intelligence platform (the dependency resolver, the per-service
orchestration state machine, the readiness polling loop and the mode
selector) together with the pure fragments of the React dashboard
(HTML escaping, attack-table pagination, status rendering) and proves
the testable properties stated in the design document.

The orchestrator itself lives in `deploy.py`, which is referenced by the
Makefile (`python3 deploy.py --mode=...`) and the README but is not part
of the checked-in sources here; its data model and transition rules are
therefore modelled from the specification, as flagged on each definition.
The dashboard fragments are translated directly from the JSX sources.
-/

namespace Honeypot

/-! ## Data model (Modelled from the spec: deploy.py is absent from the sources) -/

/-- Modelled from the spec: `ServiceDescriptor` of the absent `deploy.py` —
name, maximum wait, polling interval and declared dependency set.  The
start command and probe specification are opaque to the properties proved
here and are represented by the environment (`Env`) instead. -/
structure ServiceDescriptor where
  name : String
  maxWait : Nat
  pollInterval : Nat
  dependencies : List String
deriving Repr, DecidableEq

/-- The static Descriptor Table: the declaration index of a service is its
position in this list. -/
abbrev DescTable := List ServiceDescriptor

/-- Modelled from the spec: resolver failures of the absent `deploy.py` —
`CycleDetected` for a cyclic table, `UnknownService` for a target missing
from the table. -/
inductive ResolveError where
  | CycleDetected
  | UnknownService
deriving Repr, DecidableEq

/-- Names declared by the table, in declaration order. -/
def tableNames (table : DescTable) : List String :=
  table.map (·.name)

/-- Look up the (first) descriptor with the given name. -/
def lookupDesc (table : DescTable) (n : String) : Option ServiceDescriptor :=
  table.find? (fun d => d.name == n)

/-- Dependencies of a name (empty for a name outside the table). -/
def depsOf (table : DescTable) (n : String) : List String :=
  match lookupDesc table n with
  | some d => d.dependencies
  | none => []

/-! ## Dependency resolver (Modelled from the spec) -/

/-- One expansion step of the dependency closure: add the dependencies of
every member. -/
def expandOnce (table : DescTable) (s : List String) : List String :=
  (s ++ s.flatMap (depsOf table)).dedup

/-- Modelled from the spec: transitive dependency closure of the absent
`deploy.py`, iterated to a fixed point with fuel. -/
def closureAux (table : DescTable) : Nat → List String → List String
  | 0, s => s
  | fuel + 1, s =>
    let s' := expandOnce table s
    if s'.all (fun x => s.contains x) then s else closureAux table fuel s'

/-- The full dependency closure of the target set. -/
def closure (table : DescTable) (targets : List String) : List String :=
  closureAux table (table.length + 1) targets

/-- The services that have to be ordered: the table restricted (in
declaration order) to the dependency closure of the targets. -/
def initRemaining (table : DescTable) (targets : List String) : List String :=
  (table.filter (fun d => (closure table targets).contains d.name)).map (·.name)

/-- Selection predicate of the topological sort: a descriptor is pending and
ready when its name is still remaining and all its dependencies are already
ordered. -/
def readyPick (done remaining : List String) (d : ServiceDescriptor) : Bool :=
  remaining.contains d.name && d.dependencies.all (done.contains ·)

/-- Modelled from the spec: the topological sort of the absent `deploy.py` —
repeated selection of a ready-to-start node, ties broken by ascending
declaration index (the first match in table order). -/
def kahn (table : DescTable) : Nat → List String → List String → Except ResolveError (List String)
  | 0, done, remaining =>
    if remaining.isEmpty then .ok done else .error .CycleDetected
  | fuel + 1, done, remaining =>
    if remaining.isEmpty then .ok done
    else
      match table.find? (readyPick done remaining) with
      | none => .error .CycleDetected
      | some d => kahn table fuel (done ++ [d.name]) (remaining.erase d.name)

/-- Modelled from the spec: `resolve` of the absent `deploy.py` — fails with
`UnknownService` when a target is not declared, otherwise computes the
dependency closure and a deterministic topological order. -/
def resolve (table : DescTable) (targets : List String) : Except ResolveError (List String) :=
  if targets.all (fun t => (lookupDesc table t).isSome) then
    kahn table table.length [] (initRemaining table targets)
  else .error .UnknownService

/-! ## Graph-theoretic side conditions -/

/-- `a` directly depends on `b`. -/
def DependsOn (table : DescTable) (a b : String) : Prop :=
  ∃ d, lookupDesc table a = some d ∧ b ∈ d.dependencies

/-- Reflexive-transitive dependency reachability. -/
inductive Reaches (table : DescTable) : String → String → Prop
  | refl (a : String) : Reaches table a a
  | step {a b c : String} : DependsOn table a b → Reaches table b c → Reaches table a c

/-- `a` depends on `b` through at least one edge. -/
def ReachesPlus (table : DescTable) (a b : String) : Prop :=
  ∃ c, DependsOn table a c ∧ Reaches table c b

/-- Every declared dependency refers to a declared service. -/
def ClosedTable (table : DescTable) : Prop :=
  ∀ d ∈ table, ∀ dep ∈ d.dependencies, dep ∈ tableNames table

/-- Service names are declared at most once. -/
def NodupNames (table : DescTable) : Prop :=
  (tableNames table).Nodup

/-- The dependency graph is acyclic, witnessed by a ranking function that
strictly decreases along dependency edges. -/
def AcyclicTable (table : DescTable) : Prop :=
  ∃ rank : String → Nat, ∀ d ∈ table, ∀ dep ∈ d.dependencies, rank dep < rank d.name

/-- A set of names is closed under declared dependencies. -/
def ClosedSet (table : DescTable) (s : List String) : Prop :=
  ∀ x ∈ s, ∀ dep ∈ depsOf table x, dep ∈ s

/-- Declared table names still missing from `s` — the termination measure of
the closure iteration. -/
def missNames (table : DescTable) (s : List String) : Nat :=
  ((tableNames table).dedup.filter (fun x => !s.contains x)).length

/-- Every dependency of every member of an ordered list appears strictly
before it: the topological-order contract of `resolve`. -/
def DepsBeforePrefix (table : DescTable) (out : List String) : Prop :=
  ∀ l₁ s l₂, out = l₁ ++ s :: l₂ →
    ∀ d, lookupDesc table s = some d → ∀ dep ∈ d.dependencies, dep ∈ l₁

/-- At every position of the ordered list, the emitted service is the
ready-to-start pending service of least declaration index: the
deterministic tie-break contract of `resolve`. -/
def TieBreakMin (table : DescTable) (out : List String) : Prop :=
  ∀ l₁ s l₂, out = l₁ ++ s :: l₂ →
    ∃ i, ∃ hi : i < table.length, (table.get ⟨i, hi⟩).name = s ∧
      readyPick l₁ (s :: l₂) (table.get ⟨i, hi⟩) = true ∧
      ∀ j, ∀ hj : j < table.length, j < i →
        readyPick l₁ (s :: l₂) (table.get ⟨j, hj⟩) = false

/-! ## Readiness checker and orchestrator (Modelled from the spec) -/

/-- Modelled from the spec: the tri-state verdict of the Readiness Checker. -/
inductive Verdict where
  | Ready
  | NotReady
  | Unknown
deriving Repr, DecidableEq

/-- Modelled from the spec: terminal per-service outcome states of the
absent `deploy.py` (§3 `ServiceOutcome` plus `SkippedDependencyFailed`
from §4.3). -/
inductive SState where
  | AlreadyRunning
  | ReadyConfirmed
  | TimedOut
  | StartFailed
  | SkippedDependencyFailed
deriving Repr, DecidableEq

/-- A per-service outcome recorded in the run report. -/
structure ServiceOutcome where
  name : String
  state : SState
  elapsed : Nat
deriving Repr, DecidableEq

/-- A container-engine interaction emitted by the run: a start command, or
the recording of a terminal outcome. -/
inductive Event where
  | start (n : String)
  | outcome (n : String) (s : SState)
deriving Repr, DecidableEq

/-- Modelled from the spec: the external collaborators of the absent
`deploy.py` — the container engine (running query, start call acceptance)
and the readiness probes (a verdict for each poll attempt). -/
structure Env where
  running : String → Bool
  startOk : String → Bool
  probe : String → Nat → Verdict

/-- A state counts as success when the service reached `ReadyConfirmed` or
`AlreadyRunning`. -/
def okState : SState → Bool
  | .ReadyConfirmed => true
  | .AlreadyRunning => true
  | _ => false

/-- First recorded outcome for a service name. -/
def findOutcome (report : List ServiceOutcome) (n : String) : Option ServiceOutcome :=
  report.find? (fun o => o.name == n)

/-- A dependency is met when it has a recorded successful outcome. -/
def depOk : Option ServiceOutcome → Bool
  | some o => okState o.state
  | none => false

/-- Modelled from the spec: the bounded polling loop of the absent
`deploy.py` — probe every `pollInterval`, accumulate elapsed time, time out
once `maxWait` has elapsed; `NotReady` and `Unknown` verdicts both consume
the same budget. -/
def pollLoop (probe : Nat → Verdict) (maxWait pollInterval : Nat) :
    Nat → Nat → Nat → SState × Nat
  | 0, _, elapsed => (.TimedOut, elapsed)
  | fuel + 1, k, elapsed =>
    if maxWait ≤ elapsed then (.TimedOut, elapsed)
    else
      match probe k with
      | .Ready => (.ReadyConfirmed, elapsed)
      | _ => pollLoop probe maxWait pollInterval fuel (k + 1) (elapsed + pollInterval)

/-- Enough poll attempts to exhaust the `maxWait` budget. -/
def pollAttempts (maxWait pollInterval : Nat) : Nat :=
  maxWait / pollInterval + 1

/-- Run the polling phase of one service from a fresh start. -/
def runPoll (probe : Nat → Verdict) (maxWait pollInterval : Nat) : SState × Nat :=
  pollLoop probe maxWait pollInterval (pollAttempts maxWait pollInterval) 0 0

/-- Modelled from the spec: processing of a single service by the absent
`deploy.py` (§4.3) — skip when a dependency is unmet, short-circuit to
`AlreadyRunning` when the engine reports the container running, record
`StartFailed` when the engine rejects the start call, otherwise poll. -/
def processOne (env : Env) (table : DescTable) (report : List ServiceOutcome)
    (n : String) : ServiceOutcome × List Event :=
  match lookupDesc table n with
  | none => (⟨n, .StartFailed, 0⟩, [.outcome n .StartFailed])
  | some d =>
    if d.dependencies.all (fun dep => depOk (findOutcome report dep)) then
      if env.running n then
        (⟨n, .AlreadyRunning, 0⟩, [.outcome n .AlreadyRunning])
      else if env.startOk n then
        let r := runPoll (env.probe n) d.maxWait d.pollInterval
        (⟨n, r.1, r.2⟩, [.start n, .outcome n r.1])
      else
        (⟨n, .StartFailed, 0⟩, [.start n, .outcome n .StartFailed])
    else
      (⟨n, .SkippedDependencyFailed, 0⟩, [.outcome n .SkippedDependencyFailed])

/-- Modelled from the spec: the orchestration walk of the absent
`deploy.py` — services processed strictly in RunPlan order, each outcome
appended to the report, engine interactions appended to the event trace. -/
def orchestrate (env : Env) (table : DescTable) :
    List String → List ServiceOutcome → List Event → List ServiceOutcome × List Event
  | [], report, events => (report, events)
  | n :: rest, report, events =>
    let r := processOne env table report n
    orchestrate env table rest (report ++ [r.1]) (events ++ r.2)

/-- Overall success: every targeted service reached `ReadyConfirmed` or
`AlreadyRunning`. -/
def reportSuccess (report : List ServiceOutcome) (targets : List String) : Bool :=
  targets.all (fun t => depOk (findOutcome report t))

/-- The final report of one orchestration invocation. -/
structure RunResult where
  report : List ServiceOutcome
  success : Bool
  events : List Event
deriving Repr, DecidableEq

/-- Modelled from the spec: a full deployment run of the absent `deploy.py`
— resolve first (a configuration error aborts before any side effect), then
orchestrate the plan. -/
def runDeploy (env : Env) (table : DescTable) (targets : List String) :
    Except ResolveError RunResult :=
  match resolve table targets with
  | .error e => .error e
  | .ok plan =>
    let r := orchestrate env table plan [] []
    .ok ⟨r.1, reportSuccess r.1 targets, r.2⟩

/-! ## Mode selector (Modelled from the spec) -/

/-- Modelled from the spec: the deployment modes of the absent `deploy.py`
(the `--mode` flag of the Makefile targets). -/
inductive DeploymentMode where
  | Full
  | ElkOnly
  | HoneypotsOnly
  | WebappOnly
  | StatusOnly
deriving Repr, DecidableEq

/-- Modelled from the spec: the fixed target set of each mode; `Full`
targets every declared service and `StatusOnly` maps to the empty start
set.  The concrete subset names follow the Makefile and README. -/
def modeTargets (table : DescTable) : DeploymentMode → List String
  | .Full => tableNames table
  | .ElkOnly => ["elasticsearch", "logstash", "kibana"]
  | .HoneypotsOnly => ["cowrie", "dionaea", "flask"]
  | .WebappOnly => ["webapp"]
  | .StatusOnly => []

/-- Modelled from the spec: the read-only status pass — one probe per known
service, no engine mutation. -/
def statusEntry (env : Env) (n : String) : ServiceOutcome :=
  if env.probe n 0 = .Ready then ⟨n, .ReadyConfirmed, 0⟩
  else if env.running n then ⟨n, .AlreadyRunning, 0⟩
  else ⟨n, .TimedOut, 0⟩

/-- The report of the read-only status pass covers every known service. -/
def statusReport (env : Env) (table : DescTable) : List ServiceOutcome :=
  table.map (fun d => statusEntry env d.name)

/-- Modelled from the spec: a run in a given mode — `StatusOnly` performs
only the read-only status pass, every other mode deploys its target set. -/
def runMode (env : Env) (table : DescTable) : DeploymentMode → Except ResolveError RunResult
  | .StatusOnly => .ok ⟨statusReport env table, true, []⟩
  | m => runDeploy env table (modeTargets table m)

/-- The service a container-engine event concerns. -/
def eventName : Event → String
  | .start n => n
  | .outcome n _ => n

/-- Report invariant of the orchestration walk: every successfully finished
service had all its declared dependencies successfully finished in the same
report. -/
def GoodRep (table : DescTable) (report : List ServiceOutcome) : Prop :=
  ∀ o ∈ report, okState o.state = true →
    ∀ d, lookupDesc table o.name = some d →
      ∀ dep ∈ d.dependencies,
        ∃ o', findOutcome report dep = some o' ∧ okState o'.state = true

/-- Temporal safety of an event trace: before every start command, every
direct or transitive dependency of the started service already has a
successful outcome recorded earlier in the trace. -/
def StartSafe (table : DescTable) (events : List Event) : Prop :=
  ∀ l₁ s l₂, events = l₁ ++ .start s :: l₂ →
    ∀ d, ReachesPlus table s d →
      ∃ st, (st = SState.ReadyConfirmed ∨ st = SState.AlreadyRunning) ∧
        Event.outcome d st ∈ l₁

/-- A seven-service descriptor table with the dependency shape of the
platform (used to exercise the orchestrator on concrete runs). -/
def demoTable : DescTable :=
  [⟨"elasticsearch", 120, 5, []⟩,
   ⟨"logstash", 60, 5, ["elasticsearch"]⟩,
   ⟨"kibana", 60, 5, ["elasticsearch"]⟩,
   ⟨"cowrie", 30, 2, ["logstash"]⟩,
   ⟨"dionaea", 30, 2, ["logstash"]⟩,
   ⟨"flask", 30, 2, ["logstash"]⟩,
   ⟨"webapp", 30, 2, ["elasticsearch"]⟩]

/-- A two-service table whose dependency graph is a cycle. -/
def cyclicTable : DescTable :=
  [⟨"a", 1, 1, ["b"]⟩, ⟨"b", 1, 1, ["a"]⟩]

/-- A two-service table: `b` depends on `a`. -/
def abTable : DescTable :=
  [⟨"a", 1, 1, []⟩, ⟨"b", 1, 1, ["a"]⟩]

/-- An engine where nothing runs and every start call is rejected. -/
def failEnv : Env :=
  ⟨fun _ => false, fun _ => false, fun _ _ => .Ready⟩

/-- An engine where nothing runs yet, start calls succeed and probes are
immediately ready. -/
def startEnv : Env :=
  ⟨fun _ => false, fun _ => true, fun _ _ => .Ready⟩

/-- The concrete result of deploying `abTable` against `failEnv`: `a` fails
to start, so `b` is skipped. -/
def failRun : RunResult :=
  ⟨[⟨"a", .StartFailed, 0⟩, ⟨"b", .SkippedDependencyFailed, 0⟩], false,
    [.start "a", .outcome "a" .StartFailed, .outcome "b" .SkippedDependencyFailed]⟩

/-- The concrete result of deploying `abTable` against `startEnv`: both
services start and confirm ready. -/
def startRun : RunResult :=
  ⟨[⟨"a", .ReadyConfirmed, 0⟩, ⟨"b", .ReadyConfirmed, 0⟩], true,
    [.start "a", .outcome "a" .ReadyConfirmed, .start "b", .outcome "b" .ReadyConfirmed]⟩

end Honeypot

namespace Dashboard

/-! ## Dashboard status consumer (from `ServiceStatus`, `ControlPanel` and
`App.jsx`'s `load`) -/

/-- The per-service info object consumed by `ServiceStatus` (fields may be
absent in a partial report). -/
structure ServiceInfo where
  status : Option String
  health : Option String
deriving Repr, DecidableEq

/-- What the `ServiceStatus` component renders. -/
inductive ServiceStatusView where
  | loadingPlaceholder
  | grid (cards : List (String × ServiceInfo))
deriving Repr, DecidableEq

/-- From `ServiceStatus` (`entries.length === 0` branch): the empty report
renders the spinner placeholder, otherwise the card grid. -/
def renderServiceStatus (status : List (String × ServiceInfo)) : ServiceStatusView :=
  if status.length = 0 then .loadingPlaceholder else .grid status

/-- The data a single `ServiceCard` renders. -/
structure CardView where
  running : Bool
  statusBadge : String
  showHealth : Bool
deriving Repr, DecidableEq

/-- From `ServiceCard`: `info.status === 'running'` drives the styling, the
badge shows the raw status, and the health line is shown only for a present
health value other than `none`/`unknown`. -/
def renderServiceCard (info : ServiceInfo) : CardView :=
  { running := info.status = some "running"
    statusBadge := info.status.getD ""
    showHealth :=
      match info.health with
      | some h => h ≠ "none" && h ≠ "unknown"
      | none => false }

/-- What the `ControlPanel` health panel renders. -/
inductive HealthPanelView where
  | loadingText
  | rows (entries : List (String × String))
deriving Repr, DecidableEq

/-- From `ControlPanel` (`Object.keys(health).length === 0` branch): the
empty health object renders the `Loading…` text, otherwise the rows. -/
def renderHealthPanel (health : List (String × String)) : HealthPanelView :=
  if health.length = 0 then .loadingText else .rows health

/-- From `App.jsx`'s `load`: a failed fetch (`catch`) leaves the previously
displayed state unchanged; a successful fetch replaces it. -/
def load {σ : Type} (result : Option σ) (prev : σ) : σ :=
  match result with
  | some v => v
  | none => prev

/-! ## HTML escaping (from `AttacksTable`'s `escapeHtml`) -/

/-- Replace every occurrence of the character `c` by the string `r`
(the semantics of JavaScript `String.replace` with a global single-character
pattern), over a character list. -/
def replaceAll (c : Char) (r : List Char) : List Char → List Char
  | [] => []
  | x :: xs => (if x = c then r else [x]) ++ replaceAll c r xs

/-- From `AttacksTable`'s `escapeHtml`: replace `&` by `&amp;`, then `<` by
`&lt;`, then `>` by `&gt;`. -/
def escapeHtml (s : List Char) : List Char :=
  replaceAll '>' ['&', 'g', 't', ';']
    (replaceAll '<' ['&', 'l', 't', ';']
      (replaceAll '&' ['&', 'a', 'm', 'p', ';'] s))

/-- The output grammar of `escapeHtml`: a concatenation of ordinary
characters (none of `&`, `<`, `>`) and the three entity sequences. -/
inductive Escaped : List Char → Prop
  | nil : Escaped []
  | chr {c : Char} {l : List Char} :
      c ≠ '&' → c ≠ '<' → c ≠ '>' → Escaped l → Escaped (c :: l)
  | amp {l : List Char} : Escaped l → Escaped ('&' :: 'a' :: 'm' :: 'p' :: ';' :: l)
  | lt {l : List Char} : Escaped l → Escaped ('&' :: 'l' :: 't' :: ';' :: l)
  | gt {l : List Char} : Escaped l → Escaped ('&' :: 'g' :: 't' :: ';' :: l)

/-- Every ampersand in `l` begins one of the sequences `&amp;`, `&lt;`,
`&gt;`. -/
def AmpEscaped (l : List Char) : Prop :=
  ∀ l₁ l₂, l = l₁ ++ '&' :: l₂ →
    (∃ t, l₂ = 'a' :: 'm' :: 'p' :: ';' :: t) ∨
    (∃ t, l₂ = 'l' :: 't' :: ';' :: t) ∨
    (∃ t, l₂ = 'g' :: 't' :: ';' :: t)

/-! ## Attacks table pagination (from `AttacksTable`) -/

/-- An attack event row as consumed by `AttacksTable` (every field may be
absent). -/
structure Attack where
  timestamp : Option String
  srcIp : Option String
  honeypotType : Option String
  eventType : Option String
  username : Option String
  password : Option String
  input : Option String
  countryName : Option String
deriving Repr, DecidableEq

/-- JavaScript `String(v ?? '')` for an optional field. -/
def fieldStr (v : Option String) : String :=
  v.getD ""

/-- From `AttacksTable`'s `filtered`: an attack matches when any searched
field contains the query (an empty query matches everything). -/
def matchesFilter (q : String) (a : Attack) : Bool :=
  q = "" ||
    [a.srcIp, a.honeypotType, a.eventType, a.username, a.password, a.input,
      a.countryName].any (fun v => (fieldStr v).containsSubstr q)

/-- From `AttacksTable`'s dynamic column access `a[sortCol]`. -/
def sortKey (col : String) (a : Attack) : String :=
  if col = "@timestamp" then fieldStr a.timestamp
  else if col = "src_ip" then fieldStr a.srcIp
  else if col = "honeypot_type" then fieldStr a.honeypotType
  else if col = "event_type" then fieldStr a.eventType
  else if col = "username" then fieldStr a.username
  else ""

/-- From `AttacksTable`'s `sorted`: stable sort by the selected column,
ascending or descending. -/
def sortedAttacks (attacks : List Attack) (col : String) (asc : Bool) : List Attack :=
  attacks.mergeSort (fun a b =>
    if asc then sortKey col a ≤ sortKey col b else sortKey col b ≤ sortKey col a)

/-- `PER_PAGE = 15` in `AttacksTable`. -/
def PER_PAGE : Nat := 15

/-- From `AttacksTable`: `sorted.slice((page - 1) * PER_PAGE, page * PER_PAGE)`. -/
def pagedAttacks (attacks : List Attack) (q col : String) (asc : Bool)
    (page : Nat) : List Attack :=
  (((sortedAttacks (attacks.filter (matchesFilter q)) col asc).drop
      ((page - 1) * PER_PAGE)).take PER_PAGE)

/-- From `AttacksTable`: `Math.max(1, Math.ceil(sorted.length / PER_PAGE))`. -/
def totalPages (attacks : List Attack) (q : String) : Nat :=
  max 1 (((attacks.filter (matchesFilter q)).length + PER_PAGE - 1) / PER_PAGE)

/-! ## Theorems: dashboard -/

theorem replaceAll_append (c : Char) (r : List Char) (a b : List Char) :
    replaceAll c r (a ++ b) = replaceAll c r a ++ replaceAll c r b := by
  induction a with
  | nil => simp [replaceAll]
  | cons x xs ih => simp [replaceAll, ih]

theorem escapeHtml_append (a b : List Char) :
    escapeHtml (a ++ b) = escapeHtml a ++ escapeHtml b := by
  simp [escapeHtml, replaceAll_append]

theorem escaped_append {a b : List Char} (ha : Escaped a) (hb : Escaped b) :
    Escaped (a ++ b) := by
  induction ha with
  | nil => simpa using hb
  | chr h1 h2 h3 _ ih => exact Escaped.chr h1 h2 h3 ih
  | amp _ ih => exact Escaped.amp ih
  | lt _ ih => exact Escaped.lt ih
  | gt _ ih => exact Escaped.gt ih

theorem escaped_escapeHtml (s : List Char) : Escaped (escapeHtml s) := by
  induction s with
  | nil => exact Escaped.nil
  | cons x xs ih =>
    have hx : (x :: xs) = [x] ++ xs := rfl
    rw [hx, escapeHtml_append]
    refine escaped_append ?_ ih
    by_cases h1 : x = '&'
    · subst h1
      have hc : escapeHtml ['&'] = ['&', 'a', 'm', 'p', ';'] := by decide
      rw [hc]; exact Escaped.amp Escaped.nil
    by_cases h2 : x = '<'
    · subst h2
      have hc : escapeHtml ['<'] = ['&', 'l', 't', ';'] := by decide
      rw [hc]; exact Escaped.lt Escaped.nil
    by_cases h3 : x = '>'
    · subst h3
      have hc : escapeHtml ['>'] = ['&', 'g', 't', ';'] := by decide
      rw [hc]; exact Escaped.gt Escaped.nil
    · have hc : escapeHtml [x] = [x] := by
        simp [escapeHtml, replaceAll, h1, h2, h3]
      rw [hc]; exact Escaped.chr h1 h2 h3 Escaped.nil

theorem escaped_no_lt {l : List Char} (h : Escaped l) : '<' ∉ l := by
  induction h with
  | nil => simp
  | chr h1 h2 h3 _ ih => simp [ih]; intro hc; exact h2 hc.symm
  | amp _ ih => simp [ih]
  | lt _ ih => simp [ih]
  | gt _ ih => simp [ih]

theorem escaped_no_gt {l : List Char} (h : Escaped l) : '>' ∉ l := by
  induction h with
  | nil => simp
  | chr h1 h2 h3 _ ih => simp [ih]; intro hc; exact h3 hc.symm
  | amp _ ih => simp [ih]
  | lt _ ih => simp [ih]
  | gt _ ih => simp [ih]

theorem escaped_amp_escaped {l : List Char} (h : Escaped l) : AmpEscaped l := by
  induction h with
  | nil => intro l₁ l₂ hl; exact absurd hl (by simp)
  | chr h1 h2 h3 _ ih =>
    intro l₁ l₂ hl
    cases l₁ with
    | nil => simp at hl; exact absurd hl.1 h1
    | cons c₁ t₁ => simp at hl; exact ih t₁ l₂ hl.2
  | amp _ ih =>
    intro l₁ l₂ hl
    cases l₁ with
    | nil => simp at hl; exact Or.inl ⟨_, hl.symm⟩
    | cons c₁ t₁ =>
      simp at hl
      obtain ⟨_, hl⟩ := hl
      cases t₁ with
      | nil => simp at hl
      | cons c₂ t₂ =>
        simp at hl
        obtain ⟨_, hl⟩ := hl
        cases t₂ with
        | nil => simp at hl
        | cons c₃ t₃ =>
          simp at hl
          obtain ⟨_, hl⟩ := hl
          cases t₃ with
          | nil => simp at hl
          | cons c₄ t₄ =>
            simp at hl
            obtain ⟨_, hl⟩ := hl
            cases t₄ with
            | nil => simp at hl
            | cons c₅ t₅ =>
              simp at hl
              exact ih t₅ l₂ hl.2
  | lt _ ih =>
    intro l₁ l₂ hl
    cases l₁ with
    | nil => simp at hl; exact Or.inr (Or.inl ⟨_, hl.symm⟩)
    | cons c₁ t₁ =>
      simp at hl
      obtain ⟨_, hl⟩ := hl
      cases t₁ with
      | nil => simp at hl
      | cons c₂ t₂ =>
        simp at hl
        obtain ⟨_, hl⟩ := hl
        cases t₂ with
        | nil => simp at hl
        | cons c₃ t₃ =>
          simp at hl
          obtain ⟨_, hl⟩ := hl
          cases t₃ with
          | nil => simp at hl
          | cons c₄ t₄ =>
            simp at hl
            exact ih t₄ l₂ hl.2
  | gt _ ih =>
    intro l₁ l₂ hl
    cases l₁ with
    | nil => simp at hl; exact Or.inr (Or.inr ⟨_, hl.symm⟩)
    | cons c₁ t₁ =>
      simp at hl
      obtain ⟨_, hl⟩ := hl
      cases t₁ with
      | nil => simp at hl
      | cons c₂ t₂ =>
        simp at hl
        obtain ⟨_, hl⟩ := hl
        cases t₂ with
        | nil => simp at hl
        | cons c₃ t₃ =>
          simp at hl
          obtain ⟨_, hl⟩ := hl
          cases t₃ with
          | nil => simp at hl
          | cons c₄ t₄ =>
            simp at hl
            exact ih t₄ l₂ hl.2

/-- C9: the string returned by `escapeHtml` contains no `<` and no `>`
character, and every `&` in it begins one of the sequences `&amp;`, `&lt;`,
`&gt;` — so the value passed to `dangerouslySetInnerHTML` in the attacks
table's credentials cell can never contain an HTML tag. -/
theorem escapeHtml_safe (s : List Char) :
    '<' ∉ escapeHtml s ∧ '>' ∉ escapeHtml s ∧ AmpEscaped (escapeHtml s) :=
  ⟨escaped_no_lt (escaped_escapeHtml s), escaped_no_gt (escaped_escapeHtml s),
    escaped_amp_escaped (escaped_escapeHtml s)⟩

/-- C10: for every attacks list, filter string, sort column, sort direction
and page number, the computed page slice holds at most `PER_PAGE = 15`
entries and `totalPages` is at least 1, so the pagination footer's range
arithmetic is always defined even for an empty filtered list. -/
theorem attacks_pagination_bounds (attacks : List Attack) (q col : String)
    (asc : Bool) (page : Nat) :
    (pagedAttacks attacks q col asc page).length ≤ PER_PAGE ∧
      1 ≤ totalPages attacks q := by
  constructor
  · exact List.length_take_le _ _
  · exact le_max_left _ _

/-- C8: the dashboard status consumer is total on empty or partial input —
the empty status report renders the loading placeholder, the empty health
object renders the loading text, a service card with every field missing
renders the defined stopped fallback, and a failed status fetch leaves the
previously displayed state unchanged. -/
theorem status_consumer_total :
    renderServiceStatus [] = .loadingPlaceholder ∧
    renderHealthPanel [] = .loadingText ∧
    renderServiceCard ⟨none, none⟩ = ⟨false, "", false⟩ ∧
    (∀ prev : List (String × ServiceInfo), load none prev = prev) ∧
    (∀ prev : List (String × String), load none prev = prev) := by
  refine ⟨rfl, rfl, rfl, fun prev => rfl, fun prev => rfl⟩

end Dashboard

namespace Honeypot

/-! ## Theorems: dependency closure -/

theorem mem_expandOnce {table : DescTable} {s : List String} {x : String} :
    x ∈ expandOnce table s ↔ x ∈ s ∨ ∃ y ∈ s, x ∈ depsOf table y := by
  simp [expandOnce]

theorem expandOnce_subset (table : DescTable) {s : List String} {x : String}
    (hx : x ∈ s) : x ∈ expandOnce table s :=
  mem_expandOnce.mpr (Or.inl hx)

theorem depsOf_tableNames {table : DescTable} (hclosed : ClosedTable table)
    {y x : String} (hx : x ∈ depsOf table y) : x ∈ tableNames table := by
  unfold depsOf at hx
  cases hfind : lookupDesc table y with
  | none => rw [hfind] at hx; simp at hx
  | some d =>
    rw [hfind] at hx
    exact hclosed d (List.mem_of_find?_eq_some hfind) x hx

theorem missNames_lt {table : DescTable} {s : List String}
    {x : String} (hx : x ∈ expandOnce table s) (hxs : x ∉ s)
    (hxt : x ∈ tableNames table) :
    missNames table (expandOnce table s) < missNames table s := by
  have hsubl : List.Sublist
      ((tableNames table).dedup.filter (fun y => !(expandOnce table s).contains y))
      ((tableNames table).dedup.filter (fun y => !s.contains y)) := by
    apply List.monotone_filter_right
    intro y hy
    simp only [Bool.not_eq_true', ← Bool.not_eq_true, List.elem_iff] at hy ⊢
    intro hys
    exact hy (expandOnce_subset table hys)
  refine lt_of_le_of_ne hsubl.length_le ?_
  intro heq
  have hlists := hsubl.eq_of_length heq
  have hxr : x ∈ (tableNames table).dedup.filter (fun y => !s.contains y) := by
    refine List.mem_filter.mpr ⟨List.mem_dedup.mpr hxt, ?_⟩
    simp [hxs]
  rw [← hlists] at hxr
  have := (List.mem_filter.mp hxr).2
  simp [hx] at this

theorem closureAux_succ (table : DescTable) (n : Nat) (s : List String) :
    closureAux table (n + 1) s =
      if (expandOnce table s).all (fun y => s.contains y) then s
      else closureAux table n (expandOnce table s) := rfl

theorem closureAux_extensive (table : DescTable) :
    ∀ fuel s, ∀ x ∈ s, x ∈ closureAux table fuel s := by
  intro fuel
  induction fuel with
  | zero => intro s x hx; exact hx
  | succ n ih =>
    intro s x hx
    rw [closureAux_succ]
    by_cases hc : (expandOnce table s).all (fun y => s.contains y)
    · rw [if_pos hc]; exact hx
    · rw [if_neg hc]
      exact ih _ x (expandOnce_subset table hx)

theorem closureAux_closed {table : DescTable} (hclosed : ClosedTable table) :
    ∀ fuel s, missNames table s < fuel → ClosedSet table (closureAux table fuel s) := by
  intro fuel
  induction fuel with
  | zero => intro s h; omega
  | succ n ih =>
    intro s hm
    rw [closureAux_succ]
    by_cases hc : (expandOnce table s).all (fun y => s.contains y)
    · rw [if_pos hc]
      intro x hx dep hdep
      have hdep' : dep ∈ expandOnce table s := mem_expandOnce.mpr (Or.inr ⟨x, hx, hdep⟩)
      have := List.all_eq_true.mp hc dep hdep'
      simpa [List.elem_iff] using this
    · rw [if_neg hc]
      apply ih
      obtain ⟨x, hx, hxs⟩ : ∃ x ∈ expandOnce table s, x ∉ s := by
        rw [List.all_eq_true] at hc
        push_neg at hc
        obtain ⟨x, hx, hxs⟩ := hc
        exact ⟨x, hx, by simpa [List.elem_iff] using hxs⟩
      have hxt : x ∈ tableNames table := by
        rcases mem_expandOnce.mp hx with h | ⟨y, _, hd⟩
        · exact absurd h hxs
        · exact depsOf_tableNames hclosed hd
      have hlt := missNames_lt hx hxs hxt
      omega

theorem closure_closed {table : DescTable} (hclosed : ClosedTable table)
    (targets : List String) : ClosedSet table (closure table targets) := by
  apply closureAux_closed hclosed
  have h1 : missNames table targets ≤ (tableNames table).dedup.length :=
    List.length_filter_le _ _
  have h2 : (tableNames table).dedup.length ≤ (tableNames table).length :=
    (List.dedup_sublist _).length_le
  have h3 : (tableNames table).length = table.length := List.length_map table _
  omega

theorem closure_extensive (table : DescTable) {targets : List String} {x : String}
    (hx : x ∈ targets) : x ∈ closure table targets :=
  closureAux_extensive table _ targets x hx

theorem reaches_mem_closure {table : DescTable} (hclosed : ClosedTable table)
    {targets : List String} {a b : String}
    (ha : a ∈ closure table targets) (hr : Reaches table a b) :
    b ∈ closure table targets := by
  induction hr with
  | refl => exact ha
  | @step p q r hd _ ih =>
    apply ih
    obtain ⟨d, hfind, hdep⟩ := hd
    refine closure_closed hclosed targets p ha q ?_
    simp [depsOf, hfind, hdep]

theorem reaches_tableNames {table : DescTable} (hclosed : ClosedTable table)
    {a b : String} (ha : a ∈ tableNames table) (hr : Reaches table a b) :
    b ∈ tableNames table := by
  induction hr with
  | refl => exact ha
  | @step p q r hd _ ih =>
    apply ih
    obtain ⟨d, hfind, hdep⟩ := hd
    exact hclosed d (List.mem_of_find?_eq_some hfind) q hdep

theorem reaches_trans {table : DescTable} {a b c : String}
    (h1 : Reaches table a b) (h2 : Reaches table b c) : Reaches table a c := by
  induction h1 with
  | refl => exact h2
  | step hd _ ih => exact Reaches.step hd (ih h2)

/-! ## Theorems: dependency resolver -/

theorem mem_initRemaining {table : DescTable} {targets : List String} {x : String} :
    x ∈ initRemaining table targets ↔
      (∃ d ∈ table, d.name = x) ∧ x ∈ closure table targets := by
  simp only [initRemaining, List.mem_map, List.mem_filter]
  constructor
  · rintro ⟨d, ⟨hd, hc⟩, rfl⟩
    exact ⟨⟨d, hd, rfl⟩, by simpa [List.elem_iff] using hc⟩
  · rintro ⟨⟨d, hd, rfl⟩, hc⟩
    exact ⟨d, ⟨hd, by simpa [List.elem_iff] using hc⟩, rfl⟩

theorem initRemaining_nodup {table : DescTable} (h : NodupNames table)
    (targets : List String) : (initRemaining table targets).Nodup := by
  have hsub : List.Sublist (initRemaining table targets) (tableNames table) :=
    List.Sublist.map _ (List.filter_sublist table)
  exact h.sublist hsub

theorem initRemaining_length {table : DescTable} (targets : List String) :
    (initRemaining table targets).length ≤ table.length := by
  have hsub : List.Sublist (initRemaining table targets) (tableNames table) :=
    List.Sublist.map _ (List.filter_sublist table)
  calc (initRemaining table targets).length ≤ (tableNames table).length :=
        hsub.length_le
    _ = table.length := List.length_map table _

theorem find?_first_index {α : Type} (p : α → Bool) :
    ∀ (l : List α) (a : α), l.find? p = some a →
      ∃ i, ∃ hi : i < l.length, l.get ⟨i, hi⟩ = a ∧ p a = true ∧
        ∀ j, ∀ hj : j < l.length, j < i → p (l.get ⟨j, hj⟩) = false := by
  intro l
  induction l with
  | nil => intro a h; simp [List.find?] at h
  | cons x xs ih =>
    intro a h
    by_cases hp : p x
    · rw [List.find?_cons_of_pos xs hp] at h
      obtain rfl : x = a := Option.some.inj h
      exact ⟨0, by simp, rfl, hp, fun j hj hj0 => absurd hj0 (by omega)⟩
    · rw [List.find?_cons_of_neg xs (by simpa using hp)] at h
      obtain ⟨i, hi, hget, hpa, hmin⟩ := ih a h
      refine ⟨i + 1, by simp; omega, by simpa using hget, hpa, ?_⟩
      intro j hj hjlt
      cases j with
      | zero => simpa using hp
      | succ j' =>
        have hj' : j' < xs.length := by simp at hj; omega
        have := hmin j' hj' (by omega)
        simpa using this

theorem readyPick_congr {done r₁ r₂ : List String}
    (h : ∀ x, x ∈ r₁ ↔ x ∈ r₂) (d : ServiceDescriptor) :
    readyPick done r₁ d = readyPick done r₂ d := by
  unfold readyPick
  have hc : r₁.contains d.name = r₂.contains d.name := by
    by_cases hm : d.name ∈ r₁
    · have hm2 := (h d.name).mp hm
      simp [List.elem_iff, hm, hm2]
    · have hm2 : d.name ∉ r₂ := fun hx => hm ((h d.name).mpr hx)
      simp [List.elem_iff, hm, hm2]
  rw [hc]

theorem kahn_zero (table : DescTable) (done remaining : List String) :
    kahn table 0 done remaining =
      if remaining.isEmpty then .ok done else .error .CycleDetected := rfl

theorem kahn_succ (table : DescTable) (fuel : Nat) (done remaining : List String) :
    kahn table (fuel + 1) done remaining =
      if remaining.isEmpty then .ok done
      else
        match table.find? (readyPick done remaining) with
        | none => .error .CycleDetected
        | some d => kahn table fuel (done ++ [d.name]) (remaining.erase d.name) := rfl

theorem kahn_sound (table : DescTable) :
    ∀ fuel done remaining out,
      remaining.Nodup →
      kahn table fuel done remaining = .ok out →
      ∃ suffix, out = done ++ suffix ∧ suffix.Perm remaining ∧
        ∀ l₁ s l₂, suffix = l₁ ++ s :: l₂ →
          ∃ i, ∃ hi : i < table.length, (table.get ⟨i, hi⟩).name = s ∧
            readyPick (done ++ l₁) (s :: l₂) (table.get ⟨i, hi⟩) = true ∧
            ∀ j, ∀ hj : j < table.length, j < i →
              readyPick (done ++ l₁) (s :: l₂) (table.get ⟨j, hj⟩) = false := by
  intro fuel
  induction fuel with
  | zero =>
    intro done remaining out hnd hk
    rw [kahn_zero] at hk
    by_cases he : remaining.isEmpty
    · rw [if_pos he] at hk
      obtain rfl : done = out := by simpa using hk
      refine ⟨[], by simp, ?_, ?_⟩
      · rw [List.isEmpty_iff.mp he]
      · intro l₁ s l₂ hsplit
        exact absurd hsplit (by simp)
    · rw [if_neg he] at hk
      simp at hk
  | succ n ih =>
    intro done remaining out hnd hk
    rw [kahn_succ] at hk
    by_cases he : remaining.isEmpty
    · rw [if_pos he] at hk
      obtain rfl : done = out := by simpa using hk
      refine ⟨[], by simp, ?_, ?_⟩
      · rw [List.isEmpty_iff.mp he]
      · intro l₁ s l₂ hsplit
        exact absurd hsplit (by simp)
    · rw [if_neg he] at hk
      cases hfind : table.find? (readyPick done remaining) with
      | none => rw [hfind] at hk; simp at hk
      | some d =>
        rw [hfind] at hk
        have hready : readyPick done remaining d = true := List.find?_some hfind
        have hmem : d.name ∈ remaining := by
          have h1 : d.name ∈ remaining ∧ d.dependencies.all (done.contains ·) = true := by
            simpa [readyPick, List.elem_iff] using hready
          exact h1.1
        have hnd' : (remaining.erase d.name).Nodup := hnd.erase _
        obtain ⟨suffix, hout, hperm, hpos⟩ :=
          ih (done ++ [d.name]) (remaining.erase d.name) out hnd' hk
        have hP : (d.name :: suffix).Perm remaining :=
          (hperm.cons d.name).trans (List.perm_cons_erase hmem).symm
        refine ⟨d.name :: suffix, by simpa using hout, hP, ?_⟩
        intro l₁ s l₂ hsplit
        cases l₁ with
        | nil =>
          simp only [List.nil_append] at hsplit
          obtain ⟨rfl, rfl⟩ : d.name = s ∧ suffix = l₂ := by
            constructor
            · exact (List.cons.injEq _ _ _ _ ▸ hsplit).1
            · exact (List.cons.injEq _ _ _ _ ▸ hsplit).2
          have hmemeq : ∀ x, x ∈ remaining ↔ x ∈ d.name :: suffix :=
            fun x => hP.mem_iff.symm
          obtain ⟨i, hi, hget, _, hmin⟩ := find?_first_index _ table d hfind
          refine ⟨i, hi, by rw [hget], ?_, ?_⟩
          · rw [hget, List.append_nil]
            rw [← readyPick_congr hmemeq d]
            exact hready
          · intro j hj hjlt
            have hfalse := hmin j hj hjlt
            rw [List.append_nil, ← readyPick_congr hmemeq _]
            exact hfalse
        | cons c l₁' =>
          obtain ⟨rfl, hsuffix⟩ : d.name = c ∧ suffix = l₁' ++ s :: l₂ := by
            constructor
            · exact (List.cons.injEq _ _ _ _ ▸ hsplit).1
            · exact (List.cons.injEq _ _ _ _ ▸ hsplit).2
          obtain ⟨i, hi, hget, hready', hmin'⟩ := hpos l₁' s l₂ hsuffix
          refine ⟨i, hi, hget, ?_, ?_⟩
          · have hassoc : done ++ [d.name] ++ l₁' = done ++ d.name :: l₁' := by simp
            rw [← hassoc]
            exact hready'
          · intro j hj hjlt
            have hassoc : done ++ [d.name] ++ l₁' = done ++ d.name :: l₁' := by simp
            rw [← hassoc]
            exact hmin' j hj hjlt

theorem kahn_complete (table : DescTable) (rank : String → Nat)
    (hrank : ∀ d ∈ table, ∀ dep ∈ d.dependencies, rank dep < rank d.name) :
    ∀ fuel done remaining,
      remaining.length ≤ fuel →
      (∀ x ∈ remaining, (lookupDesc table x).isSome) →
      (∀ x ∈ remaining, ∀ dep ∈ depsOf table x, dep ∈ done ∨ dep ∈ remaining) →
      ∃ out, kahn table fuel done remaining = .ok out := by
  intro fuel
  induction fuel with
  | zero =>
    intro done remaining hlen _ _
    have hr : remaining = [] := List.length_eq_zero.mp (by omega)
    exact ⟨done, by rw [kahn_zero, if_pos (by simp [hr])]⟩
  | succ n ih =>
    intro done remaining hlen hlook hdeps
    by_cases he : remaining.isEmpty
    · exact ⟨done, by rw [kahn_succ, if_pos he]⟩
    · have hne : remaining ≠ [] := by simpa [List.isEmpty_iff] using he
      cases hargmin : remaining.argmin rank with
      | none => exact absurd (List.argmin_eq_none.mp hargmin) hne
      | some m =>
        have hm : m ∈ remaining := List.argmin_mem hargmin
        have hlm := hlook m hm
        cases hfindm : lookupDesc table m with
        | none => rw [hfindm] at hlm; simp at hlm
        | some dm =>
          have hdmname : dm.name = m := by
            have := List.find?_some hfindm
            exact eq_of_beq this
          have hdm_mem : dm ∈ table := List.mem_of_find?_eq_some hfindm
          have hready : readyPick done remaining dm = true := by
            unfold readyPick
            rw [Bool.and_eq_true]
            refine ⟨?_, ?_⟩
            · rw [hdmname]
              exact List.elem_iff.mpr hm
            · rw [List.all_eq_true]
              intro dep hdep
              have hdep' : dep ∈ depsOf table m := by simp [depsOf, hfindm, hdep]
              rcases hdeps m hm dep hdep' with h | h
              · exact List.elem_iff.mpr h
              · exfalso
                have h1 : rank dep < rank dm.name := hrank dm hdm_mem dep hdep
                have h2 : rank m ≤ rank dep := List.le_of_mem_argmin h hargmin
                rw [hdmname] at h1
                omega
          have hfs : (table.find? (readyPick done remaining)).isSome :=
            List.find?_isSome.mpr ⟨dm, hdm_mem, hready⟩
          cases hfind : table.find? (readyPick done remaining) with
          | none => rw [hfind] at hfs; simp at hfs
          | some d =>
            have hready_d : readyPick done remaining d = true := List.find?_some hfind
            have hdmem : d.name ∈ remaining := by
              have h1 : d.name ∈ remaining ∧ d.dependencies.all (done.contains ·) = true := by
                simpa [readyPick, List.elem_iff] using hready_d
              exact h1.1
            have hlen' : (remaining.erase d.name).length ≤ n := by
              rw [List.length_erase_of_mem hdmem]
              have hpos : 0 < remaining.length := List.length_pos.mpr hne
              omega
            have hlook' : ∀ x ∈ remaining.erase d.name, (lookupDesc table x).isSome :=
              fun x hx => hlook x (List.mem_of_mem_erase hx)
            have hdeps' : ∀ x ∈ remaining.erase d.name, ∀ dep ∈ depsOf table x,
                dep ∈ done ++ [d.name] ∨ dep ∈ remaining.erase d.name := by
              intro x hx dep hdep
              rcases hdeps x (List.mem_of_mem_erase hx) dep hdep with h | h
              · exact Or.inl (List.mem_append_left _ h)
              · by_cases hd : dep = d.name
                · exact Or.inl (List.mem_append_right _ (by simp [hd]))
                · exact Or.inr ((List.mem_erase_of_ne hd).mpr h)
            obtain ⟨out, hout⟩ := ih (done ++ [d.name]) (remaining.erase d.name) hlen' hlook' hdeps'
            refine ⟨out, ?_⟩
            rw [kahn_succ, if_neg he, hfind]
            exact hout

theorem kahn_run_spec {table : DescTable} {targets : List String} {out : List String}
    (hnodup : NodupNames table)
    (hk : kahn table table.length [] (initRemaining table targets) = .ok out) :
    out.Perm (initRemaining table targets) ∧
      DepsBeforePrefix table out ∧ TieBreakMin table out ∧ out.Nodup := by
  obtain ⟨suffix, hsfx, hperm, hpos⟩ := kahn_sound table table.length [] (initRemaining table targets)
    out (initRemaining_nodup hnodup targets) hk
  rw [List.nil_append] at hsfx
  subst hsfx
  have htie : TieBreakMin table out := by
    intro l₁ s l₂ hsplit
    obtain ⟨i, hi, hget, hr, hmin⟩ := hpos l₁ s l₂ hsplit
    exact ⟨i, hi, hget, by simpa using hr, fun j hj hjlt => by simpa using hmin j hj hjlt⟩
  have hdbp : DepsBeforePrefix table out := by
    intro l₁ s l₂ hsplit d hfind dep hdep
    obtain ⟨i, hi, hget, hr, _⟩ := htie l₁ s l₂ hsplit
    have hge_mem : table.get ⟨i, hi⟩ ∈ table := table.get_mem _ _
    have hfind' : table.find? (fun x => x.name == s) = some d := hfind
    have hd_mem : d ∈ table := List.mem_of_find?_eq_some hfind'
    have hd_name : d.name = s := by
      have hb := List.find?_some hfind'
      simpa using hb
    have hnodup' : (table.map (fun x => x.name)).Nodup := hnodup
    have heq : d = table.get ⟨i, hi⟩ :=
      List.inj_on_of_nodup_map hnodup' hd_mem hge_mem (by rw [hd_name, hget])
    have h2 : (table.get ⟨i, hi⟩).dependencies.all (l₁.contains ·) = true := by
      have h3 : (s :: l₂).contains (table.get ⟨i, hi⟩).name = true ∧
          (table.get ⟨i, hi⟩).dependencies.all (l₁.contains ·) = true := by
        simpa [readyPick, List.elem_iff] using hr
      exact h3.2
    have hdep' : dep ∈ (table.get ⟨i, hi⟩).dependencies := heq ▸ hdep
    have := List.all_eq_true.mp h2 dep hdep'
    exact List.elem_iff.mp this
  have hnd : out.Nodup := hperm.nodup_iff.mpr (initRemaining_nodup hnodup targets)
  exact ⟨hperm, hdbp, htie, hnd⟩

theorem resolve_spec {table : DescTable} {targets : List String}
    (hclosed : ClosedTable table) (hnodup : NodupNames table)
    (hacyc : AcyclicTable table)
    (htargets : ∀ t ∈ targets, (lookupDesc table t).isSome) :
    ∃ out, resolve table targets = .ok out ∧
      out.Perm (initRemaining table targets) ∧
      DepsBeforePrefix table out ∧
      TieBreakMin table out ∧
      out.Nodup ∧
      (∀ t ∈ targets, t ∈ out) := by
  obtain ⟨rank, hrank⟩ := hacyc
  have hguard : targets.all (fun t => (lookupDesc table t).isSome) = true := by
    rw [List.all_eq_true]
    intro t ht
    exact htargets t ht
  have hlook : ∀ x ∈ initRemaining table targets, (lookupDesc table x).isSome := by
    intro x hx
    obtain ⟨⟨d, hd, hdn⟩, _⟩ := mem_initRemaining.mp hx
    exact List.find?_isSome.mpr ⟨d, hd, by simp [hdn]⟩
  have hdeps : ∀ x ∈ initRemaining table targets, ∀ dep ∈ depsOf table x,
      dep ∈ ([] : List String) ∨ dep ∈ initRemaining table targets := by
    intro x hx dep hdep
    right
    obtain ⟨_, hcx⟩ := mem_initRemaining.mp hx
    have hdepc : dep ∈ closure table targets := closure_closed hclosed targets x hcx dep hdep
    have hdept : dep ∈ tableNames table := depsOf_tableNames hclosed hdep
    obtain ⟨d, hd, hdn⟩ := List.mem_map.mp hdept
    exact mem_initRemaining.mpr ⟨⟨d, hd, hdn⟩, hdepc⟩
  obtain ⟨out, hout⟩ := kahn_complete table rank hrank table.length [] (initRemaining table targets)
    (initRemaining_length targets) hlook hdeps
  have hresolve : resolve table targets = .ok out := by
    unfold resolve
    rw [if_pos hguard]
    exact hout
  obtain ⟨hperm, hdbp, htie, hnd⟩ := kahn_run_spec hnodup hout
  have htmem : ∀ t ∈ targets, t ∈ out := by
    intro t ht
    have h1 : t ∈ closure table targets := closure_extensive table ht
    have hsome := htargets t ht
    cases hfind : lookupDesc table t with
    | none => rw [hfind] at hsome; simp at hsome
    | some d =>
      have hfind' : table.find? (fun x => x.name == t) = some d := hfind
      have hd_mem : d ∈ table := List.mem_of_find?_eq_some hfind'
      have hd_name : d.name = t := by
        have hb := List.find?_some hfind'
        simpa using hb
      have hmem : t ∈ initRemaining table targets :=
        mem_initRemaining.mpr ⟨⟨d, hd_mem, hd_name⟩, h1⟩
      exact hperm.mem_iff.mpr hmem
  exact ⟨out, hresolve, hperm, hdbp, htie, hnd, htmem⟩

/-- C1: for every acyclic Descriptor Table and every valid mode, `resolve`
returns an ordered list in which each dependency appears strictly before
every service that depends on it (`DepsBeforePrefix`), ties between
simultaneously-ready services are broken by ascending declaration index
(`TieBreakMin`), and — `resolve` being a pure function of its table and
target set — two calls with the same arguments return the identical list. -/
theorem resolve_topological_deterministic (table : DescTable) (mode : DeploymentMode)
    (hclosed : ClosedTable table) (hnodup : NodupNames table)
    (hacyc : AcyclicTable table)
    (htargets : ∀ t ∈ modeTargets table mode, (lookupDesc table t).isSome) :
    ∃ out, resolve table (modeTargets table mode) = .ok out ∧
      DepsBeforePrefix table out ∧ TieBreakMin table out ∧
      resolve table (modeTargets table mode) = resolve table (modeTargets table mode) := by
  obtain ⟨out, h1, _, h2, h3, _, _⟩ := resolve_spec hclosed hnodup hacyc htargets
  exact ⟨out, h1, h2, h3, rfl⟩

theorem resolve_topological_deterministic_witness :
    ∃ out, resolve demoTable (modeTargets demoTable .Full) = .ok out ∧
      DepsBeforePrefix demoTable out ∧ TieBreakMin demoTable out ∧
      resolve demoTable (modeTargets demoTable .Full) =
        resolve demoTable (modeTargets demoTable .Full) :=
  resolve_topological_deterministic demoTable .Full
    (by unfold ClosedTable tableNames demoTable; decide)
    (by unfold NodupNames tableNames demoTable; decide)
    ⟨fun n => if n = "elasticsearch" then 0 else if n = "logstash" then 1 else 2,
      by unfold demoTable; decide⟩
    (by unfold modeTargets tableNames demoTable; decide)

/-! ## Theorems: cycle detection -/

theorem kahn_error (table : DescTable) :
    ∀ fuel done remaining e, kahn table fuel done remaining = .error e →
      e = .CycleDetected := by
  intro fuel
  induction fuel with
  | zero =>
    intro done remaining e h
    rw [kahn_zero] at h
    by_cases he : remaining.isEmpty
    · rw [if_pos he] at h; simp at h
    · rw [if_neg he] at h
      have h2 : ResolveError.CycleDetected = e := by simpa using h
      exact h2.symm
  | succ n ih =>
    intro done remaining e h
    rw [kahn_succ] at h
    by_cases he : remaining.isEmpty
    · rw [if_pos he] at h; simp at h
    · rw [if_neg he] at h
      cases hfind : table.find? (readyPick done remaining) with
      | none =>
        rw [hfind] at h
        simpa using h.symm
      | some d =>
        rw [hfind] at h
        exact ih _ _ e h

theorem depsBefore_index_lt {table : DescTable} {out : List String}
    (hnd : out.Nodup) (hdbp : DepsBeforePrefix table out)
    {a b : String} (hab : DependsOn table a b) (ha : a ∈ out) :
    out.indexOf b < out.indexOf a := by
  obtain ⟨l₁, l₂, hsplit⟩ := List.append_of_mem ha
  obtain ⟨d, hfind, hdep⟩ := hab
  have hbl : b ∈ l₁ := hdbp l₁ a l₂ hsplit d hfind b hdep
  have hanotl₁ : a ∉ l₁ := by
    rw [hsplit] at hnd
    have hdisj := (List.nodup_append.mp hnd).2.2
    intro hal
    exact hdisj hal (List.mem_cons_self a l₂)
  rw [hsplit, List.indexOf_append_of_mem hbl, List.indexOf_append_of_not_mem hanotl₁]
  have h1 : l₁.indexOf b < l₁.length := List.indexOf_lt_length.mpr hbl
  have h2 : (a :: l₂).indexOf a = 0 := by simp
  omega

theorem reaches_index_le {table : DescTable} {out : List String}
    (hnd : out.Nodup) (hdbp : DepsBeforePrefix table out)
    (hin : ∀ x y, x ∈ out → DependsOn table x y → y ∈ out) :
    ∀ a b, Reaches table a b → a ∈ out → out.indexOf b ≤ out.indexOf a := by
  intro a b hr
  induction hr with
  | refl => intro _; exact le_refl _
  | @step p q r hd _ ih =>
    intro hp
    have hq : q ∈ out := hin p q hp hd
    have h1 : out.indexOf q < out.indexOf p := depsBefore_index_lt hnd hdbp hd hp
    have h2 : out.indexOf r ≤ out.indexOf q := ih hq
    omega

/-- C3: a Descriptor Table whose dependency graph contains a cycle reachable
from the targets makes `resolve` fail with `CycleDetected`, and the whole
run aborts with that configuration error before any container interaction —
for every container-engine state `env`, `runDeploy` returns the same error
and no orchestration step (hence no start call) is performed. -/
theorem cycle_detected_no_start (env : Env) (table : DescTable) (targets : List String)
    (hclosed : ClosedTable table) (hnodup : NodupNames table)
    (htargets : ∀ t ∈ targets, (lookupDesc table t).isSome)
    (hcycle : ∃ n t, t ∈ targets ∧ Reaches table t n ∧ ReachesPlus table n n) :
    resolve table targets = .error .CycleDetected ∧
      runDeploy env table targets = .error .CycleDetected := by
  have hguard : targets.all (fun t => (lookupDesc table t).isSome) = true := by
    rw [List.all_eq_true]
    exact htargets
  have hres : resolve table targets = .error .CycleDetected := by
    unfold resolve
    rw [if_pos hguard]
    cases hk : kahn table table.length [] (initRemaining table targets) with
    | error e => rw [kahn_error table _ _ _ e hk]
    | ok out =>
      exfalso
      obtain ⟨n, t, ht, htn, hplus⟩ := hcycle
      obtain ⟨hperm, hdbp, _, hnd⟩ := kahn_run_spec hnodup hk
      have ht_names : t ∈ tableNames table := by
        have hsome := htargets t ht
        cases hfind : lookupDesc table t with
        | none => rw [hfind] at hsome; simp at hsome
        | some d =>
          have hfind' : table.find? (fun x => x.name == t) = some d := hfind
          have hd_mem := List.mem_of_find?_eq_some hfind'
          have hdn : d.name = t := by
            have hb := List.find?_some hfind'
            simpa using hb
          exact hdn ▸ List.mem_map_of_mem _ hd_mem
      have hmem_out : ∀ x, Reaches table t x → x ∈ out := by
        intro x hx
        have hx_cl : x ∈ closure table targets :=
          reaches_mem_closure hclosed (closure_extensive table ht) hx
        have hx_names : x ∈ tableNames table := reaches_tableNames hclosed ht_names hx
        obtain ⟨d, hd, hdn⟩ := List.mem_map.mp hx_names
        exact hperm.mem_iff.mpr (mem_initRemaining.mpr ⟨⟨d, hd, hdn⟩, hx_cl⟩)
      have hin : ∀ x y, x ∈ out → DependsOn table x y → y ∈ out := by
        intro x y hx hdep
        have hx_ir := hperm.mem_iff.mp hx
        obtain ⟨_, hx_cl⟩ := mem_initRemaining.mp hx_ir
        obtain ⟨d, hfind, hdy⟩ := hdep
        have hy_deps : y ∈ depsOf table x := by simp [depsOf, hfind, hdy]
        have hy_cl : y ∈ closure table targets :=
          closure_closed hclosed targets x hx_cl y hy_deps
        have hy_names : y ∈ tableNames table := depsOf_tableNames hclosed hy_deps
        obtain ⟨d2, hd2, hdn2⟩ := List.mem_map.mp hy_names
        exact hperm.mem_iff.mpr (mem_initRemaining.mpr ⟨⟨d2, hd2, hdn2⟩, hy_cl⟩)
      obtain ⟨c, hnc, hcn⟩ := hplus
      have hn_out : n ∈ out := hmem_out n htn
      have hc_out : c ∈ out := hin n c hn_out hnc
      have h1 : out.indexOf c < out.indexOf n := depsBefore_index_lt hnd hdbp hnc hn_out
      have h2 : out.indexOf n ≤ out.indexOf c := reaches_index_le hnd hdbp hin c n hcn hc_out
      omega
  refine ⟨hres, ?_⟩
  unfold runDeploy
  rw [hres]

theorem cycle_detected_no_start_witness :
    resolve cyclicTable ["a"] = .error .CycleDetected ∧
      runDeploy ⟨fun _ => false, fun _ => true, fun _ _ => .Ready⟩ cyclicTable ["a"] =
        .error .CycleDetected :=
  cycle_detected_no_start ⟨fun _ => false, fun _ => true, fun _ _ => .Ready⟩
    cyclicTable ["a"]
    (by unfold ClosedTable tableNames cyclicTable; decide)
    (by unfold NodupNames tableNames cyclicTable; decide)
    (by unfold cyclicTable; decide)
    ⟨"a", "a", by decide, Reaches.refl "a",
      ⟨"b", ⟨⟨"a", 1, 1, ["b"]⟩, by decide, by decide⟩,
        Reaches.step ⟨⟨"b", 1, 1, ["a"]⟩, by decide, by decide⟩ (Reaches.refl "a")⟩⟩

/-! ## Theorems: orchestrator structure -/

theorem processOne_unknown (env : Env) (table : DescTable)
    (report : List ServiceOutcome) (n : String)
    (hfind : lookupDesc table n = none) :
    processOne env table report n = (⟨n, .StartFailed, 0⟩, [.outcome n .StartFailed]) := by
  unfold processOne
  rw [hfind]

theorem processOne_skip (env : Env) (table : DescTable)
    (report : List ServiceOutcome) (n : String) (d : ServiceDescriptor)
    (hfind : lookupDesc table n = some d)
    (hdeps : d.dependencies.all (fun dep => depOk (findOutcome report dep)) = false) :
    processOne env table report n =
      (⟨n, .SkippedDependencyFailed, 0⟩, [.outcome n .SkippedDependencyFailed]) := by
  unfold processOne
  rw [hfind]
  simp [hdeps]

theorem processOne_already (env : Env) (table : DescTable)
    (report : List ServiceOutcome) (n : String) (d : ServiceDescriptor)
    (hfind : lookupDesc table n = some d)
    (hdeps : d.dependencies.all (fun dep => depOk (findOutcome report dep)) = true)
    (hrun : env.running n = true) :
    processOne env table report n =
      (⟨n, .AlreadyRunning, 0⟩, [.outcome n .AlreadyRunning]) := by
  unfold processOne
  rw [hfind]
  simp [hdeps, hrun]

theorem processOne_startFailed (env : Env) (table : DescTable)
    (report : List ServiceOutcome) (n : String) (d : ServiceDescriptor)
    (hfind : lookupDesc table n = some d)
    (hdeps : d.dependencies.all (fun dep => depOk (findOutcome report dep)) = true)
    (hrun : env.running n = false) (hstart : env.startOk n = false) :
    processOne env table report n =
      (⟨n, .StartFailed, 0⟩, [.start n, .outcome n .StartFailed]) := by
  unfold processOne
  rw [hfind]
  simp [hdeps, hrun, hstart]

theorem processOne_poll (env : Env) (table : DescTable)
    (report : List ServiceOutcome) (n : String) (d : ServiceDescriptor)
    (hfind : lookupDesc table n = some d)
    (hdeps : d.dependencies.all (fun dep => depOk (findOutcome report dep)) = true)
    (hrun : env.running n = false) (hstart : env.startOk n = true) :
    processOne env table report n =
      (⟨n, (runPoll (env.probe n) d.maxWait d.pollInterval).1,
          (runPoll (env.probe n) d.maxWait d.pollInterval).2⟩,
        [.start n, .outcome n (runPoll (env.probe n) d.maxWait d.pollInterval).1]) := by
  unfold processOne
  rw [hfind]
  simp [hdeps, hrun, hstart]

theorem processOne_name (env : Env) (table : DescTable)
    (report : List ServiceOutcome) (n : String) :
    (processOne env table report n).1.name = n := by
  cases hfind : lookupDesc table n with
  | none => rw [processOne_unknown env table report n hfind]
  | some d =>
    cases hdeps : d.dependencies.all (fun dep => depOk (findOutcome report dep)) with
    | false => rw [processOne_skip env table report n d hfind hdeps]
    | true =>
      cases hrun : env.running n with
      | true => rw [processOne_already env table report n d hfind hdeps hrun]
      | false =>
        cases hstart : env.startOk n with
        | false => rw [processOne_startFailed env table report n d hfind hdeps hrun hstart]
        | true => rw [processOne_poll env table report n d hfind hdeps hrun hstart]

theorem processOne_events_name (env : Env) (table : DescTable)
    (report : List ServiceOutcome) (n : String) :
    ∀ e ∈ (processOne env table report n).2, eventName e = n := by
  intro e he
  cases hfind : lookupDesc table n with
  | none =>
    rw [processOne_unknown env table report n hfind] at he
    simp at he
    subst he; rfl
  | some d =>
    cases hdeps : d.dependencies.all (fun dep => depOk (findOutcome report dep)) with
    | false =>
      rw [processOne_skip env table report n d hfind hdeps] at he
      simp at he
      subst he; rfl
    | true =>
      cases hrun : env.running n with
      | true =>
        rw [processOne_already env table report n d hfind hdeps hrun] at he
        simp at he
        subst he; rfl
      | false =>
        cases hstart : env.startOk n with
        | false =>
          rw [processOne_startFailed env table report n d hfind hdeps hrun hstart] at he
          simp at he
          rcases he with rfl | rfl <;> rfl
        | true =>
          rw [processOne_poll env table report n d hfind hdeps hrun hstart] at he
          simp at he
          rcases he with rfl | rfl <;> rfl

theorem orchestrate_nil (env : Env) (table : DescTable)
    (report : List ServiceOutcome) (events : List Event) :
    orchestrate env table [] report events = (report, events) := rfl

theorem orchestrate_cons (env : Env) (table : DescTable) (n : String)
    (rest : List String) (report : List ServiceOutcome) (events : List Event) :
    orchestrate env table (n :: rest) report events =
      orchestrate env table rest (report ++ [(processOne env table report n).1])
        (events ++ (processOne env table report n).2) := rfl

theorem orchestrate_append (env : Env) (table : DescTable) (a b : List String) :
    ∀ report events,
      orchestrate env table (a ++ b) report events =
        orchestrate env table b (orchestrate env table a report events).1
          (orchestrate env table a report events).2 := by
  induction a with
  | nil => intro report events; rfl
  | cons x xs ih =>
    intro report events
    rw [List.cons_append, orchestrate_cons, orchestrate_cons, ih]

theorem orchestrate_report_names (env : Env) (table : DescTable) :
    ∀ suffix report events,
      ((orchestrate env table suffix report events).1).map (fun o => o.name) =
        report.map (fun o => o.name) ++ suffix := by
  intro suffix
  induction suffix with
  | nil => intro report events; simp [orchestrate_nil]
  | cons n rest ih =>
    intro report events
    rw [orchestrate_cons, ih]
    simp [processOne_name]

theorem orchestrate_events_split (env : Env) (table : DescTable) :
    ∀ suffix report events,
      ∃ es, (orchestrate env table suffix report events).2 = events ++ es ∧
        ∀ e ∈ es, eventName e ∈ suffix := by
  intro suffix
  induction suffix with
  | nil => intro report events; exact ⟨[], by simp [orchestrate_nil], by simp⟩
  | cons n rest ih =>
    intro report events
    rw [orchestrate_cons]
    obtain ⟨es, h1, h2⟩ := ih (report ++ [(processOne env table report n).1])
      (events ++ (processOne env table report n).2)
    refine ⟨(processOne env table report n).2 ++ es, ?_, ?_⟩
    · rw [h1, List.append_assoc]
    · intro e he
      rcases List.mem_append.mp he with h | h
      · rw [processOne_events_name env table report n e h]
        exact List.mem_cons_self n rest
      · exact List.mem_cons_of_mem _ (h2 e h)

theorem findOutcome_append (report₁ report₂ : List ServiceOutcome) (n : String) :
    findOutcome (report₁ ++ report₂) n =
      (findOutcome report₁ n).or (findOutcome report₂ n) :=
  List.find?_append

theorem findOutcome_append_left {report₁ : List ServiceOutcome}
    (report₂ : List ServiceOutcome) {n : String} {o : ServiceOutcome}
    (h : findOutcome report₁ n = some o) :
    findOutcome (report₁ ++ report₂) n = some o := by
  rw [findOutcome_append, h]
  rfl

theorem findOutcome_mem {report : List ServiceOutcome} {n : String}
    {o : ServiceOutcome} (h : findOutcome report n = some o) :
    o ∈ report ∧ o.name = n := by
  refine ⟨List.mem_of_find?_eq_some h, ?_⟩
  have hb := List.find?_some h
  simpa using hb

theorem findOutcome_of_mem {report : List ServiceOutcome} {o : ServiceOutcome}
    (h : o ∈ report) : ∃ o2, findOutcome report o.name = some o2 := by
  have hs : (report.find? (fun x => x.name == o.name)).isSome :=
    List.find?_isSome.mpr ⟨o, h, by simp⟩
  exact Option.isSome_iff_exists.mp hs

theorem findOutcome_none {report : List ServiceOutcome} {n : String}
    (h : ∀ o ∈ report, o.name ≠ n) : findOutcome report n = none := by
  apply List.find?_eq_none.mpr
  intro o ho
  simpa using h o ho

/-! ## Theorems: idempotence on a healthy system -/

theorem mem_tableNames_lookup {table : DescTable} {n : String}
    (h : n ∈ tableNames table) : ∃ d, lookupDesc table n = some d := by
  obtain ⟨d, hd, hdn⟩ := List.mem_map.mp h
  have hs : (table.find? (fun x => x.name == n)).isSome :=
    List.find?_isSome.mpr ⟨d, hd, by simp [hdn]⟩
  exact Option.isSome_iff_exists.mp hs

theorem orchestrate_all_running (env : Env) (table : DescTable)
    (hrun : ∀ s ∈ tableNames table, env.running s = true) :
    ∀ suffix report events,
      (∀ n ∈ suffix, n ∈ tableNames table) →
      (∀ o ∈ report, o.state = .AlreadyRunning) →
      (∀ l₁ n l₂, suffix = l₁ ++ n :: l₂ → ∀ d, lookupDesc table n = some d →
        ∀ dep ∈ d.dependencies, (∃ o ∈ report, o.name = dep) ∨ dep ∈ l₁) →
      (∀ o ∈ (orchestrate env table suffix report events).1, o.state = .AlreadyRunning) ∧
      (∀ e ∈ (orchestrate env table suffix report events).2,
        e ∈ events ∨ ∀ m, e ≠ .start m) := by
  intro suffix
  induction suffix with
  | nil =>
    intro report events hnames hrep _
    rw [orchestrate_nil]
    exact ⟨hrep, fun e he => Or.inl he⟩
  | cons n rest ih =>
    intro report events hnames hrep hdeps
    obtain ⟨d, hfind⟩ := mem_tableNames_lookup (hnames n (List.mem_cons_self n rest))
    have hdall : d.dependencies.all (fun dep => depOk (findOutcome report dep)) = true := by
      rw [List.all_eq_true]
      intro dep hdep
      rcases hdeps [] n rest rfl d hfind dep hdep with ⟨o, ho, hon⟩ | habs
      · obtain ⟨o2, hf⟩ := findOutcome_of_mem ho
        rw [hon] at hf
        have ⟨ho2, _⟩ := findOutcome_mem hf
        have := hrep o2 ho2
        simp [depOk, hf, this, okState]
      · exact absurd habs (List.not_mem_nil dep)
    have hpo := processOne_already env table report n d hfind hdall
      (hrun n (hnames n (List.mem_cons_self n rest)))
    rw [orchestrate_cons, hpo]
    have hstep := ih (report ++ [⟨n, .AlreadyRunning, 0⟩])
      (events ++ [.outcome n .AlreadyRunning])
      (fun m hm => hnames m (List.mem_cons_of_mem n hm))
      (by
        intro o ho
        rcases List.mem_append.mp ho with h | h
        · exact hrep o h
        · simp at h; rw [h])
      (by
        intro l₁ m l₂ hsplit d2 hfind2 dep hdep
        rcases hdeps (n :: l₁) m l₂ (by rw [hsplit, List.cons_append]) d2 hfind2 dep hdep with
          ⟨o, ho, hon⟩ | hmem
        · exact Or.inl ⟨o, List.mem_append_left _ ho, hon⟩
        · rcases List.mem_cons.mp hmem with rfl | hmem2
          · exact Or.inl ⟨⟨dep, .AlreadyRunning, 0⟩,
              List.mem_append_right _ (List.mem_singleton.mpr rfl), rfl⟩
          · exact Or.inr hmem2)
    refine ⟨hstep.1, ?_⟩
    intro e he
    rcases hstep.2 e he with h | h
    · rcases List.mem_append.mp h with h2 | h2
      · exact Or.inl h2
      · simp at h2
        subst h2
        exact Or.inr (fun m => by simp)
    · exact Or.inr h

/-- C2: re-running the orchestrator against a system in which every service
is already running (and its probes healthy) is idempotent — the run issues
zero container-start calls, every outcome in the report is `AlreadyRunning`
(hence `AlreadyRunning` or `ReadyConfirmed`), and the overall success flag
is true. -/
theorem run_idempotent_on_healthy (env : Env) (table : DescTable) (targets : List String)
    (hclosed : ClosedTable table) (hnodup : NodupNames table)
    (hacyc : AcyclicTable table)
    (htargets : ∀ t ∈ targets, (lookupDesc table t).isSome)
    (hrun : ∀ s ∈ tableNames table, env.running s = true)
    (hhealthy : ∀ s k, env.probe s k = .Ready) :
    ∃ r, runDeploy env table targets = .ok r ∧
      (∀ n, Event.start n ∉ r.events) ∧
      (∀ o ∈ r.report, o.state = .AlreadyRunning ∨ o.state = .ReadyConfirmed) ∧
      r.success = true := by
  obtain ⟨plan, hres, hperm, hdbp, htie, hnd, htmem⟩ := resolve_spec hclosed hnodup hacyc htargets
  have hplannames : ∀ n ∈ plan, n ∈ tableNames table := by
    intro n hn
    have hir := hperm.mem_iff.mp hn
    obtain ⟨⟨d, hd, hdn⟩, _⟩ := mem_initRemaining.mp hir
    exact hdn ▸ List.mem_map_of_mem _ hd
  have horch := orchestrate_all_running env table hrun plan [] [] hplannames
    (by intro o ho; exact absurd ho (List.not_mem_nil o))
    (by
      intro l₁ n l₂ hsplit d hfind dep hdep
      exact Or.inr (hdbp l₁ n l₂ hsplit d hfind dep hdep))
  have hrd : runDeploy env table targets =
      .ok ⟨(orchestrate env table plan [] []).1,
        reportSuccess (orchestrate env table plan [] []).1 targets,
        (orchestrate env table plan [] []).2⟩ := by
    unfold runDeploy
    rw [hres]
  refine ⟨_, hrd, ?_, ?_, ?_⟩
  · intro n hstart
    rcases horch.2 _ hstart with h | h
    · exact List.not_mem_nil _ h
    · exact h n rfl
  · intro o ho
    exact Or.inl (horch.1 o ho)
  · unfold reportSuccess
    rw [List.all_eq_true]
    intro t ht
    have htp : t ∈ plan := htmem t ht
    have hnames := orchestrate_report_names env table plan [] []
    have htn : t ∈ ((orchestrate env table plan [] []).1).map (fun o => o.name) := by
      rw [hnames]
      simpa using htp
    obtain ⟨o, ho, hon⟩ := List.mem_map.mp htn
    obtain ⟨o2, hf⟩ := findOutcome_of_mem ho
    rw [hon] at hf
    have ⟨ho2, _⟩ := findOutcome_mem hf
    have hs := horch.1 o2 ho2
    simp [depOk, hf, hs, okState]

theorem run_idempotent_on_healthy_witness :
    ∃ r, runDeploy ⟨fun _ => true, fun _ => true, fun _ _ => .Ready⟩ demoTable
        (tableNames demoTable) = .ok r ∧
      (∀ n, Event.start n ∉ r.events) ∧
      (∀ o ∈ r.report, o.state = .AlreadyRunning ∨ o.state = .ReadyConfirmed) ∧
      r.success = true :=
  run_idempotent_on_healthy ⟨fun _ => true, fun _ => true, fun _ _ => .Ready⟩
    demoTable (tableNames demoTable)
    (by unfold ClosedTable tableNames demoTable; decide)
    (by unfold NodupNames tableNames demoTable; decide)
    ⟨fun n => if n = "elasticsearch" then 0 else if n = "logstash" then 1 else 2,
      by unfold demoTable; decide⟩
    (by unfold tableNames demoTable; decide)
    (fun s _ => rfl)
    (fun s k => rfl)

/-! ## Theorems: polling timeout -/

theorem pollLoop_zero (probe : Nat → Verdict) (maxWait p k elapsed : Nat) :
    pollLoop probe maxWait p 0 k elapsed = (.TimedOut, elapsed) := rfl

theorem pollLoop_succ (probe : Nat → Verdict) (maxWait p fuel k elapsed : Nat) :
    pollLoop probe maxWait p (fuel + 1) k elapsed =
      if maxWait ≤ elapsed then (.TimedOut, elapsed)
      else
        match probe k with
        | .Ready => (.ReadyConfirmed, elapsed)
        | _ => pollLoop probe maxWait p fuel (k + 1) (elapsed + p) := rfl

theorem pollLoop_never_ready {probe : Nat → Verdict} {maxWait p : Nat}
    (hnr : ∀ k, probe k ≠ .Ready) :
    ∀ fuel k elapsed, maxWait ≤ elapsed + fuel * p → elapsed < maxWait + p →
      ∃ e, pollLoop probe maxWait p fuel k elapsed = (.TimedOut, e) ∧
        maxWait ≤ e ∧ e < maxWait + p := by
  intro fuel
  induction fuel with
  | zero =>
    intro k elapsed h1 h2
    refine ⟨elapsed, pollLoop_zero probe maxWait p k elapsed, ?_, h2⟩
    simpa using h1
  | succ n ih =>
    intro k elapsed h1 h2
    rw [pollLoop_succ]
    by_cases hle : maxWait ≤ elapsed
    · rw [if_pos hle]
      exact ⟨elapsed, rfl, hle, h2⟩
    · rw [if_neg hle]
      have h1' : maxWait ≤ elapsed + p + n * p := by
        rw [Nat.succ_mul] at h1
        omega
      have h2' : elapsed + p < maxWait + p := by omega
      cases hpk : probe k with
      | Ready => exact absurd hpk (hnr k)
      | NotReady => exact ih (k + 1) (elapsed + p) h1' h2'
      | Unknown => exact ih (k + 1) (elapsed + p) h1' h2'

theorem runPoll_never_ready {probe : Nat → Verdict} {maxWait p : Nat}
    (hp : 0 < p) (hnr : ∀ k, probe k ≠ .Ready) :
    ∃ e, runPoll probe maxWait p = (.TimedOut, e) ∧
      maxWait ≤ e ∧ e < maxWait + p := by
  unfold runPoll pollAttempts
  apply pollLoop_never_ready hnr
  · have h1 := Nat.div_add_mod maxWait p
    have h2 := Nat.mod_lt maxWait hp
    rw [Nat.zero_add, Nat.add_mul, Nat.one_mul, Nat.mul_comm (maxWait / p) p]
    omega
  · omega

/-- C5: for a service whose probe never yields Ready (NotReady and Unknown
verdicts both count toward the budget), the polling loop terminates with
outcome `TimedOut` once accumulated elapsed time reaches `max_wait` (within
one `poll_interval`), and any run whose report records a targeted service as
`TimedOut` has overall success false. -/
theorem poll_timeout_terminates (probe : Nat → Verdict) (maxWait pollInterval : Nat)
    (hp : 0 < pollInterval) (hnr : ∀ k, probe k ≠ .Ready) :
    ((runPoll probe maxWait pollInterval).1 = .TimedOut ∧
      maxWait ≤ (runPoll probe maxWait pollInterval).2 ∧
      (runPoll probe maxWait pollInterval).2 < maxWait + pollInterval) ∧
    ∀ report targets t o, t ∈ targets → findOutcome report t = some o →
      o.state = .TimedOut → reportSuccess report targets = false := by
  constructor
  · obtain ⟨e, he, h1, h2⟩ := runPoll_never_ready hp hnr
    rw [he]
    exact ⟨rfl, h1, h2⟩
  · intro report targets t o ht hf hs
    apply List.all_eq_false.mpr
    refine ⟨t, ht, ?_⟩
    simp [depOk, hf, hs, okState]

theorem poll_timeout_terminates_witness :
    ((runPoll (fun _ => Verdict.NotReady) 10 3).1 = SState.TimedOut ∧
      10 ≤ (runPoll (fun _ => Verdict.NotReady) 10 3).2 ∧
      (runPoll (fun _ => Verdict.NotReady) 10 3).2 < 10 + 3) ∧
    reportSuccess [⟨"cowrie", .TimedOut, 12⟩] ["cowrie"] = false :=
  ⟨(poll_timeout_terminates (fun _ => .NotReady) 10 3 (by decide) (fun _ h => nomatch h)).1,
    (poll_timeout_terminates (fun _ => .NotReady) 10 3 (by decide) (fun _ h => nomatch h)).2
      [⟨"cowrie", .TimedOut, 12⟩] ["cowrie"] "cowrie" ⟨"cowrie", .TimedOut, 12⟩
      (by decide) (by decide) rfl⟩

/-! ## Theorems: status-only mode -/

theorem statusEntry_name (env : Env) (n : String) : (statusEntry env n).name = n := by
  unfold statusEntry
  by_cases h1 : env.probe n 0 = .Ready
  · rw [if_pos h1]
  · rw [if_neg h1]
    by_cases h2 : env.running n = true
    · rw [if_pos h2]
    · rw [if_neg h2]

/-- C6: for every container-engine state, a run in `StatusOnly` mode issues
zero container-start calls — its event trace is empty, so the engine state
is untouched — and still produces a report entry for every known service. -/
theorem status_only_no_start (env : Env) (table : DescTable) :
    ∃ r, runMode env table .StatusOnly = .ok r ∧ r.events = [] ∧
      ∀ d ∈ table, ∃ o, findOutcome r.report d.name = some o := by
  refine ⟨⟨statusReport env table, true, []⟩, rfl, rfl, ?_⟩
  intro d hd
  have hmem : statusEntry env d.name ∈ statusReport env table :=
    List.mem_map_of_mem _ hd
  obtain ⟨o, hf⟩ := findOutcome_of_mem hmem
  rw [statusEntry_name] at hf
  exact ⟨o, hf⟩

/-! ## Theorems: failed dependencies skip dependents -/

theorem orchestrate_report_prefix (env : Env) (table : DescTable) :
    ∀ suffix report events,
      ∃ rep2, (orchestrate env table suffix report events).1 = report ++ rep2 := by
  intro suffix
  induction suffix with
  | nil => intro report events; exact ⟨[], by rw [orchestrate_nil]; simp⟩
  | cons n rest ih =>
    intro report events
    rw [orchestrate_cons]
    obtain ⟨rep2, h⟩ := ih (report ++ [(processOne env table report n).1])
      (events ++ (processOne env table report n).2)
    exact ⟨[(processOne env table report n).1] ++ rep2, by rw [h, List.append_assoc]⟩

/-- C4: if targeted service `B` declares a dependency on targeted service
`A` and `A`'s recorded outcome is `StartFailed`, then `B`'s recorded outcome
is `SkippedDependencyFailed`, `B`'s start command is never issued to the
container engine, and the run still records an outcome for every targeted
service (independent services keep being processed). -/
theorem dependent_skipped_on_start_failure (env : Env) (table : DescTable)
    (targets : List String) (A B : String) (r : RunResult)
    (hclosed : ClosedTable table) (hnodup : NodupNames table)
    (hacyc : AcyclicTable table)
    (htargets : ∀ t ∈ targets, (lookupDesc table t).isSome)
    (hrd : runDeploy env table targets = .ok r)
    (hAt : A ∈ targets) (hBt : B ∈ targets)
    (hdep : DependsOn table B A)
    (hA : ∃ oA, findOutcome r.report A = some oA ∧ oA.state = .StartFailed) :
    (∃ oB, findOutcome r.report B = some oB ∧ oB.state = .SkippedDependencyFailed) ∧
      Event.start B ∉ r.events ∧
      (∀ t ∈ targets, ∃ o ∈ r.report, o.name = t) := by
  obtain ⟨plan, hres, hperm, hdbp, htie, hnd, htmem⟩ := resolve_spec hclosed hnodup hacyc htargets
  have hrdo : runDeploy env table targets =
      .ok ⟨(orchestrate env table plan [] []).1,
        reportSuccess (orchestrate env table plan [] []).1 targets,
        (orchestrate env table plan [] []).2⟩ := by
    unfold runDeploy
    rw [hres]
  rw [hrdo] at hrd
  obtain rfl : (⟨(orchestrate env table plan [] []).1,
      reportSuccess (orchestrate env table plan [] []).1 targets,
      (orchestrate env table plan [] []).2⟩ : RunResult) = r := by
    simpa using hrd
  have hBp : B ∈ plan := htmem B hBt
  obtain ⟨l₁, l₂, hsplit⟩ := List.append_of_mem hBp
  obtain ⟨dB, hfindB, hAdep⟩ := hdep
  have hAl₁ : A ∈ l₁ := hdbp l₁ B l₂ hsplit dB hfindB A hAdep
  have hplnd : plan.Nodup := hnd
  rw [hsplit] at hplnd
  have hBnotl₁ : B ∉ l₁ := by
    intro h
    exact (List.nodup_append.mp hplnd).2.2 h (List.mem_cons_self B l₂)
  have hBnotl₂ : B ∉ l₂ :=
    (List.nodup_cons.mp (List.nodup_append.mp hplnd).2.1).1
  -- decompose the orchestration at B
  have hsplit2 : orchestrate env table plan [] [] =
      orchestrate env table (B :: l₂) (orchestrate env table l₁ [] ([] : List Event)).1
        (orchestrate env table l₁ [] []).2 := by
    rw [hsplit, orchestrate_append]
  have hR1names : ((orchestrate env table l₁ [] ([] : List Event)).1).map (fun o => o.name) = l₁ := by
    have h := orchestrate_report_names env table l₁ [] []
    simpa using h
  -- A has a StartFailed entry already after the prefix
  have hAentry : ∃ oA1, findOutcome (orchestrate env table l₁ [] ([] : List Event)).1 A = some oA1 := by
    have : A ∈ ((orchestrate env table l₁ [] ([] : List Event)).1).map (fun o => o.name) := by
      rw [hR1names]; exact hAl₁
    obtain ⟨o, ho, hon⟩ := List.mem_map.mp this
    obtain ⟨o2, hf⟩ := findOutcome_of_mem ho
    rw [hon] at hf
    exact ⟨o2, hf⟩
  obtain ⟨oA1, hfA1⟩ := hAentry
  -- compute processOne at B
  have hdall : dB.dependencies.all
      (fun dep => depOk (findOutcome (orchestrate env table l₁ [] ([] : List Event)).1 dep)) = false := by
    apply List.all_eq_false.mpr
    refine ⟨A, hAdep, ?_⟩
    -- A's entry state is StartFailed: identify with final report entry
    obtain ⟨oA, hfA, hsA⟩ := hA
    -- final report = prefix ++ rest
    have hrest : ∃ rep2, (orchestrate env table plan [] []).1 =
        (orchestrate env table l₁ [] ([] : List Event)).1 ++ rep2 := by
      rw [hsplit2, orchestrate_cons]
      obtain ⟨rep2, h⟩ := orchestrate_report_prefix env table l₂
        ((orchestrate env table l₁ [] ([] : List Event)).1 ++
          [(processOne env table (orchestrate env table l₁ [] ([] : List Event)).1 B).1])
        ((orchestrate env table l₁ [] []).2 ++
          (processOne env table (orchestrate env table l₁ [] ([] : List Event)).1 B).2)
      rw [h, List.append_assoc]
      exact ⟨_, rfl⟩
    obtain ⟨rep2, hfin⟩ := hrest
    have hfA' : findOutcome (orchestrate env table plan [] []).1 A = some oA1 := by
      rw [hfin]
      exact findOutcome_append_left _ hfA1
    have : oA = oA1 := by
      rw [hfA'] at hfA
      exact (Option.some.inj hfA).symm
    subst this
    rw [hfA1]
    simp [depOk, hsA, okState]
  have hpoB := processOne_skip env table (orchestrate env table l₁ [] ([] : List Event)).1 B dB
    hfindB hdall
  -- the final report contains B's skipped entry
  have hfinB : ∃ rep3, (orchestrate env table plan [] []).1 =
      ((orchestrate env table l₁ [] ([] : List Event)).1 ++
        [⟨B, .SkippedDependencyFailed, 0⟩]) ++ rep3 := by
    rw [hsplit2, orchestrate_cons, hpoB]
    exact orchestrate_report_prefix env table l₂ _ _
  obtain ⟨rep3, hfinB⟩ := hfinB
  have hfB1 : findOutcome ((orchestrate env table l₁ [] ([] : List Event)).1 ++
      [⟨B, .SkippedDependencyFailed, 0⟩]) B = some ⟨B, .SkippedDependencyFailed, 0⟩ := by
    rw [findOutcome_append]
    have hnone : findOutcome (orchestrate env table l₁ [] ([] : List Event)).1 B = none := by
      apply findOutcome_none
      intro o ho hn
      apply hBnotl₁
      rw [← hn, ← hR1names]
      exact List.mem_map_of_mem _ ho
    rw [hnone]
    simp [findOutcome, List.find?]
  refine ⟨⟨⟨B, .SkippedDependencyFailed, 0⟩, ?_, rfl⟩, ?_, ?_⟩
  · show findOutcome (orchestrate env table plan [] []).1 B = _
    rw [hfinB]
    exact findOutcome_append_left _ hfB1
  · -- no start B event
    show Event.start B ∉ (orchestrate env table plan [] []).2
    rw [hsplit2, orchestrate_cons, hpoB]
    obtain ⟨es3, hev3, hn3⟩ := orchestrate_events_split env table l₂ _ _
    rw [hev3]
    intro hmem
    rcases List.mem_append.mp hmem with h | h
    · rcases List.mem_append.mp h with h2 | h2
      · obtain ⟨es1, hev1, hn1⟩ := orchestrate_events_split env table l₁ [] []
        rw [hev1] at h2
        rcases List.mem_append.mp h2 with h3 | h3
        · exact List.not_mem_nil _ h3
        · exact hBnotl₁ (by simpa [eventName] using hn1 _ h3)
      · simp at h2
    · exact hBnotl₂ (by simpa [eventName] using hn3 _ h)
  · intro t ht
    have htp : t ∈ plan := htmem t ht
    have hnames := orchestrate_report_names env table plan [] []
    have : t ∈ ((orchestrate env table plan [] []).1).map (fun o => o.name) := by
      rw [hnames]; simpa using htp
    obtain ⟨o, ho, hon⟩ := List.mem_map.mp this
    exact ⟨o, ho, hon⟩

theorem dependent_skipped_on_start_failure_witness :
    (∃ oB, findOutcome failRun.report "b" = some oB ∧
        oB.state = .SkippedDependencyFailed) ∧
      Event.start "b" ∉ failRun.events ∧
      (∀ t ∈ ["a", "b"], ∃ o ∈ failRun.report, o.name = t) :=
  dependent_skipped_on_start_failure failEnv abTable ["a", "b"] "a" "b" failRun
    (by unfold ClosedTable tableNames abTable; decide)
    (by unfold NodupNames tableNames abTable; decide)
    ⟨fun n => if n = "a" then 0 else 1, by unfold abTable; decide⟩
    (by unfold abTable; decide)
    (by unfold failEnv abTable failRun; rfl)
    (by decide) (by decide)
    ⟨⟨"b", 1, 1, ["a"]⟩, by unfold abTable; decide, by decide⟩
    ⟨⟨"a", .StartFailed, 0⟩, by unfold failRun; decide, rfl⟩

/-! ## Theorems: starts happen only after dependencies are ready -/

theorem okState_cases {st : SState} (h : okState st = true) :
    st = .ReadyConfirmed ∨ st = .AlreadyRunning := by
  cases st <;> simp [okState] at h ⊢

theorem goodRep_append {table : DescTable} {report : List ServiceOutcome}
    {o : ServiceOutcome} (hg : GoodRep table report)
    (ho : okState o.state = true → ∀ d, lookupDesc table o.name = some d →
      ∀ dep ∈ d.dependencies,
        ∃ o2, findOutcome report dep = some o2 ∧ okState o2.state = true) :
    GoodRep table (report ++ [o]) := by
  intro o1 ho1 hok d hfind dep hdep
  rcases List.mem_append.mp ho1 with h | h
  · obtain ⟨o2, hf, hok2⟩ := hg o1 h hok d hfind dep hdep
    exact ⟨o2, findOutcome_append_left _ hf, hok2⟩
  · simp at h
    subst h
    obtain ⟨o2, hf, hok2⟩ := ho hok d hfind dep hdep
    exact ⟨o2, findOutcome_append_left _ hf, hok2⟩

theorem goodRep_reaches {table : DescTable} {report : List ServiceOutcome}
    (hg : GoodRep table report) :
    ∀ x y, Reaches table x y →
      (∃ o, findOutcome report x = some o ∧ okState o.state = true) →
      ∃ o2, findOutcome report y = some o2 ∧ okState o2.state = true := by
  intro x y hr
  induction hr with
  | refl => exact id
  | @step p q c hd _ ih =>
    rintro ⟨o, hf, hok⟩
    obtain ⟨d, hfind, hdep⟩ := hd
    have hm := findOutcome_mem hf
    have hfind2 : lookupDesc table o.name = some d := by rw [hm.2]; exact hfind
    obtain ⟨o2, hf2, hok2⟩ := hg o hm.1 hok d hfind2 q hdep
    exact ih ⟨o2, hf2, hok2⟩

theorem startSafe_append_no_start {table : DescTable} {events es : List Event}
    (hs : StartSafe table events) (hes : ∀ n, Event.start n ∉ es) :
    StartSafe table (events ++ es) := by
  intro l₁ s l₂ hsplit d hreach
  rcases List.append_eq_append_iff.mp hsplit with ⟨a2, h1, h2⟩ | ⟨c2, h1, h2⟩
  · exact absurd (h2 ▸ List.mem_append_right a2 (List.mem_cons_self _ _)) (hes s)
  · cases c2 with
    | nil =>
      simp at h2
      exact absurd (h2 ▸ List.mem_cons_self (Event.start s) l₂) (hes s)
    | cons e c3 =>
      obtain ⟨rfl, -⟩ : e = Event.start s ∧ l₂ = c3 ++ es := by
        constructor
        · exact ((List.cons.injEq _ _ _ _ ▸ h2).1).symm
        · exact (List.cons.injEq _ _ _ _ ▸ h2).2
      exact hs l₁ s c3 h1 d hreach

theorem startSafe_append_start {table : DescTable} {events : List Event}
    (hs : StartSafe table events) {n : String} {st : SState}
    (hdeps : ∀ d, ReachesPlus table n d →
      ∃ st2, (st2 = SState.ReadyConfirmed ∨ st2 = SState.AlreadyRunning) ∧
        Event.outcome d st2 ∈ events) :
    StartSafe table (events ++ [.start n, .outcome n st]) := by
  intro l₁ s l₂ hsplit d hreach
  rcases List.append_eq_append_iff.mp hsplit with ⟨a2, h1, h2⟩ | ⟨c2, h1, h2⟩
  · cases a2 with
    | nil =>
      simp only [List.nil_append] at h2
      have hn : n = s := by
        have := (List.cons.injEq _ _ _ _ ▸ h2).1
        simpa using this
      subst hn
      obtain ⟨st2, hok2, hmem2⟩ := hdeps d hreach
      refine ⟨st2, hok2, ?_⟩
      rw [h1, List.append_nil]
      exact hmem2
    | cons e a3 =>
      have h3 : [Event.outcome n st] = a3 ++ Event.start s :: l₂ :=
        (List.cons.injEq _ _ _ _ ▸ h2).2
      cases a3 with
      | nil => simp at h3
      | cons e2 a4 =>
        have h4 : ([] : List Event) = a4 ++ Event.start s :: l₂ :=
          (List.cons.injEq _ _ _ _ ▸ h3).2
        simp at h4
  · cases c2 with
    | nil =>
      simp only [List.nil_append] at h2
      have hn : s = n := by
        have := (List.cons.injEq _ _ _ _ ▸ h2).1
        simpa using this
      subst hn
      obtain ⟨st2, hok2, hmem2⟩ := hdeps d hreach
      refine ⟨st2, hok2, ?_⟩
      rw [List.append_nil] at h1
      rw [← h1]
      exact hmem2
    | cons e c3 =>
      have he : Event.start s = e := (List.cons.injEq _ _ _ _ ▸ h2).1
      subst he
      exact hs l₁ s c3 h1 d hreach

theorem orchestrate_start_safe (env : Env) (table : DescTable) :
    ∀ suffix report events,
      GoodRep table report →
      (∀ o ∈ report, Event.outcome o.name o.state ∈ events) →
      StartSafe table events →
      GoodRep table (orchestrate env table suffix report events).1 ∧
      (∀ o ∈ (orchestrate env table suffix report events).1,
        Event.outcome o.name o.state ∈ (orchestrate env table suffix report events).2) ∧
      StartSafe table (orchestrate env table suffix report events).2 := by
  intro suffix
  induction suffix with
  | nil =>
    intro report events hg hcov hs
    rw [orchestrate_nil]
    exact ⟨hg, hcov, hs⟩
  | cons n rest ih =>
    intro report events hg hcov hs
    rw [orchestrate_cons]
    cases hfind : lookupDesc table n with
    | none =>
      rw [processOne_unknown env table report n hfind]
      apply ih
      · exact goodRep_append hg (by intro hok; simp [okState] at hok)
      · intro o ho
        rcases List.mem_append.mp ho with h | h
        · exact List.mem_append_left _ (hcov o h)
        · simp at h
          subst h
          exact List.mem_append_right _ (by simp)
      · exact startSafe_append_no_start hs (by intro m hm; simp at hm)
    | some dsc =>
      cases hdall : dsc.dependencies.all (fun dep => depOk (findOutcome report dep)) with
      | false =>
        rw [processOne_skip env table report n dsc hfind hdall]
        apply ih
        · exact goodRep_append hg (by intro hok; simp [okState] at hok)
        · intro o ho
          rcases List.mem_append.mp ho with h | h
          · exact List.mem_append_left _ (hcov o h)
          · simp at h
            subst h
            exact List.mem_append_right _ (by simp)
        · exact startSafe_append_no_start hs (by intro m hm; simp at hm)
      | true =>
        have hdepok : ∀ dep ∈ dsc.dependencies,
            ∃ o2, findOutcome report dep = some o2 ∧ okState o2.state = true := by
          intro dep hdep
          have hall := List.all_eq_true.mp hdall dep hdep
          cases hf : findOutcome report dep with
          | none => rw [hf] at hall; simp [depOk] at hall
          | some o2 =>
            rw [hf] at hall
            exact ⟨o2, rfl, by simpa [depOk] using hall⟩
        have htrans : ∀ dep, ReachesPlus table n dep →
            ∃ st2, (st2 = SState.ReadyConfirmed ∨ st2 = SState.AlreadyRunning) ∧
              Event.outcome dep st2 ∈ events := by
          rintro dep ⟨c, hedge, hreach⟩
          obtain ⟨d0, hfind0, hdep0⟩ := hedge
          have hd0 : d0 = dsc := by
            rw [hfind0] at hfind
            exact Option.some.inj hfind
          subst hd0
          obtain ⟨oc, hfc, hokc⟩ := hdepok c hdep0
          obtain ⟨od, hfd, hokd⟩ := goodRep_reaches hg c dep hreach ⟨oc, hfc, hokc⟩
          have hm := findOutcome_mem hfd
          have hev := hcov od hm.1
          rw [hm.2] at hev
          exact ⟨od.state, okState_cases hokd, hev⟩
        have hgnew : ∀ (entry : ServiceOutcome), entry.name = n →
            GoodRep table (report ++ [entry]) := by
          intro entry hname
          refine goodRep_append hg ?_
          intro _ d2 hfind2 dep hdep2
          rw [hname] at hfind2
          have hd2 : d2 = dsc := by
            rw [hfind2] at hfind
            exact Option.some.inj hfind
          subst hd2
          exact hdepok dep hdep2
        cases hrun : env.running n with
        | true =>
          rw [processOne_already env table report n dsc hfind hdall hrun]
          apply ih
          · exact hgnew ⟨n, .AlreadyRunning, 0⟩ rfl
          · intro o ho
            rcases List.mem_append.mp ho with h | h
            · exact List.mem_append_left _ (hcov o h)
            · simp at h
              subst h
              exact List.mem_append_right _ (by simp)
          · exact startSafe_append_no_start hs (by intro m hm; simp at hm)
        | false =>
          cases hstart : env.startOk n with
          | false =>
            rw [processOne_startFailed env table report n dsc hfind hdall hrun hstart]
            apply ih
            · exact hgnew ⟨n, .StartFailed, 0⟩ rfl
            · intro o ho
              rcases List.mem_append.mp ho with h | h
              · exact List.mem_append_left _ (hcov o h)
              · simp at h
                subst h
                exact List.mem_append_right _ (by simp)
            · exact startSafe_append_start hs htrans
          | true =>
            rw [processOne_poll env table report n dsc hfind hdall hrun hstart]
            apply ih
            · exact hgnew ⟨n, (runPoll (env.probe n) dsc.maxWait dsc.pollInterval).1,
                (runPoll (env.probe n) dsc.maxWait dsc.pollInterval).2⟩ rfl
            · intro o ho
              rcases List.mem_append.mp ho with h | h
              · exact List.mem_append_left _ (hcov o h)
              · simp at h
                subst h
                exact List.mem_append_right _ (by simp)
            · exact startSafe_append_start hs htrans

/-- C7: during any orchestration run, a service's start command is never
issued before every one of its direct or transitive dependencies has
reached `ReadyConfirmed` or `AlreadyRunning` — in the emitted event trace,
every `start s` is preceded by a successful outcome event for every
dependency `s` reaches. -/
theorem start_only_after_deps_ready (env : Env) (table : DescTable)
    (targets : List String) (r : RunResult)
    (hrd : runDeploy env table targets = .ok r) :
    StartSafe table r.events := by
  cases hres : resolve table targets with
  | error e =>
    unfold runDeploy at hrd
    rw [hres] at hrd
    simp at hrd
  | ok plan =>
    unfold runDeploy at hrd
    rw [hres] at hrd
    have hr : (⟨(orchestrate env table plan [] []).1,
        reportSuccess (orchestrate env table plan [] []).1 targets,
        (orchestrate env table plan [] []).2⟩ : RunResult) = r := by
      simpa using hrd
    have hre : r.events = (orchestrate env table plan [] []).2 := by
      rw [← hr]
    rw [hre]
    exact (orchestrate_start_safe env table plan [] []
      (by intro o ho; exact absurd ho (List.not_mem_nil o))
      (by intro o ho; exact absurd ho (List.not_mem_nil o))
      (by intro l₁ s l₂ h; exact absurd h (by simp))).2.2

theorem start_only_after_deps_ready_witness :
    ∃ st, (st = SState.ReadyConfirmed ∨ st = SState.AlreadyRunning) ∧
      Event.outcome "a" st ∈ [Event.start "a", Event.outcome "a" .ReadyConfirmed] :=
  start_only_after_deps_ready startEnv abTable ["a", "b"] startRun
    (by unfold startEnv abTable startRun; rfl)
    [Event.start "a", Event.outcome "a" .ReadyConfirmed] "b"
    [Event.outcome "b" .ReadyConfirmed]
    (by unfold startRun; rfl)
    "a" ⟨"a", ⟨⟨"b", 1, 1, ["a"]⟩, by unfold abTable; decide, by decide⟩, Reaches.refl "a"⟩

end Honeypot
